import Mathlib

/-!
# Equal-weight index allocation (`etf.go`)

A shallow embedding of the computational core of `etf.go`: the table decoder
`readCSV`, the weight calculator `computeRelative`, the budget calculator
`minBudget` and the allocator `shares`.

Modelling conventions.

* The fields of a `Stock` and the value `largest` are finite numbers, written as
  rationals (`ℚ`): they are what `strconv.ParseFloat` returns for a decimal literal.
* Computed `float64` values are values of `Float64`: a finite number, `+Inf`, `-Inf` or
  `NaN`.  Every arithmetic operation rounds its exact result to the nearest binary64
  number, ties to even, overflows to an infinity and follows IEEE 754 on infinities,
  NaN and division by zero.  Each operation is rounded on its own: a product and the
  sum it enters are not fused, as in the code compiled for amd64.  Negative zero is not
  distinguished from zero.
* `int` is the 64-bit integer type; the conversion `int(f)` truncates toward zero and
  gives `-2^63` when the result does not fit, as on amd64.
* A Go `map[K]V` is an association list with pairwise distinct keys.  The order of the
  list is the order in which a `range` loop visits the entries; Go does not specify
  it, so a statement about the result of such a loop is made for every table, whatever
  the order of its entries, and a table computed from the input is taken with its
  entries in any order.
* `strconv.ParseFloat` is modelled on the base-10 literals of the input format; its
  result is the nearest `float32` or `float64`, and a literal that rounds beyond the
  largest finite number is a range error.
* A `*csv.Reader` is the sequence of results its successive `Read` calls give
  before end of input.
-/

namespace EqualWeight

/-! ## Go maps -/

/-- Value bound to key `k` in an association list, if any. -/
def lookupList {κ ν : Type} [DecidableEq κ] (k : κ) : List (κ × ν) → Option ν
  | [] => none
  | (k', v) :: rest => if k' = k then some v else lookupList k rest

/-- Assignment `m[k] = v` on an association list: overwrite the binding of `k`
when there is one, otherwise add a new binding. -/
def setList {κ ν : Type} [DecidableEq κ] (k : κ) (v : ν) : List (κ × ν) → List (κ × ν)
  | [] => [(k, v)]
  | (k', v') :: rest => if k' = k then (k, v) :: rest else (k', v') :: setList k v rest

theorem keys_setList {κ ν : Type} [DecidableEq κ] (k : κ) (v : ν) (l : List (κ × ν)) :
    (setList k v l).map Prod.fst =
      if k ∈ l.map Prod.fst then l.map Prod.fst else l.map Prod.fst ++ [k] := by
  induction l with
  | nil => simp [setList]
  | cons hd tl ih =>
    obtain ⟨k', v'⟩ := hd
    by_cases h : k' = k
    · subst h
      simp [setList]
    · have h' : ¬ k = k' := fun e => h e.symm
      by_cases hm : k ∈ tl.map Prod.fst
      · simp only [setList, h, if_false, List.map_cons, ih, hm, if_true, List.mem_cons, or_true]
      · simp only [setList, h, if_false, List.map_cons, ih, hm, List.mem_cons, h', or_self,
          List.cons_append]

theorem nodup_keys_setList {κ ν : Type} [DecidableEq κ] (k : κ) (v : ν) (l : List (κ × ν))
    (h : (l.map Prod.fst).Nodup) : ((setList k v l).map Prod.fst).Nodup := by
  rw [keys_setList]
  split
  · exact h
  · rename_i hk
    rw [List.nodup_append]
    refine ⟨h, List.nodup_singleton k, ?_⟩
    intro a ha hb
    rw [List.mem_singleton] at hb
    exact hk (hb ▸ ha)

/-- A Go `map[κ]ν`: finitely many bindings, at most one per key. -/
structure GoMap (κ ν : Type) [DecidableEq κ] where
  /-- The bindings, in the order a `range` loop visits them. -/
  entries : List (κ × ν)
  /-- No key is bound twice. -/
  nodupKeys : (entries.map Prod.fst).Nodup

namespace GoMap

variable {κ ν : Type} [DecidableEq κ]

/-- The empty map, `make(map[κ]ν)`. -/
def make : GoMap κ ν := ⟨[], List.nodup_nil⟩

/-- The comma-ok lookup `v, ok := m[k]`. -/
def get? (m : GoMap κ ν) (k : κ) : Option ν := lookupList k m.entries

/-- The assignment `m[k] = v`. -/
def set (m : GoMap κ ν) (k : κ) (v : ν) : GoMap κ ν :=
  ⟨setList k v m.entries, nodup_keys_setList k v m.entries m.nodupKeys⟩

/-- The keys of the map. -/
def keys (m : GoMap κ ν) : List κ := m.entries.map Prod.fst

/-- The number of bindings, `len(m)`. -/
def len (m : GoMap κ ν) : Nat := m.entries.length

end GoMap

/-! ## Data model -/

/-- The `Stock` struct; it is the key type of the weight and allocation maps.  `Price` is a
`float32` and `MarketCap` a `float64`; both hold the finite number the decoder stored. -/
structure Stock where
  Symbol : String
  Name : String
  Sector : String
  Price : ℚ
  MarketCap : ℚ
  deriving DecidableEq

/-! ## `math` on finite values -/

/-- The function `math.Trunc`: the integer part of `x`. -/
def Trunc (x : ℚ) : ℚ := if 0 ≤ x then (⌊x⌋ : ℤ) else (⌈x⌉ : ℤ)

/-- The function `math.Copysign` restricted to rationals: magnitude of `m`, sign of `s`. -/
def Copysign (m s : ℚ) : ℚ := if 0 ≤ s then |m| else -|m|

/-- The function `math.Round` on a finite value, as its documentation defines it:
`t := Trunc(x); if Abs(x-t) >= 0.5 then t + Copysign(1, x) else t`. -/
def Round (x : ℚ) : ℚ :=
  let t := Trunc x
  if |x - t| ≥ 1 / 2 then t + Copysign 1 x else t

/-- The integer part of a finite value: the fraction is discarded (truncation toward
zero). -/
def truncToInt (f : ℚ) : ℤ := if 0 ≤ f then ⌊f⌋ else ⌈f⌉

/-! ## Binary floating-point numbers -/

/-- Number of binary digits of `n`, computed with `fuel` halving steps. -/
def bitsAux : Nat → Nat → Nat
  | 0, _ => 0
  | fuel + 1, n => if n = 0 then 0 else bitsAux fuel (n / 2) + 1

/-- Number of binary digits of `n`: `2 ^ (bitLength n - 1) ≤ n < 2 ^ bitLength n` for
`n ≠ 0`. -/
def bitLength (n : Nat) : Nat := bitsAux n n

/-- The power `2 ^ e` for an integer exponent `e`. -/
def pow2 (e : ℤ) : ℚ :=
  if 0 ≤ e then ((2 ^ e.toNat : ℕ) : ℚ) else 1 / ((2 ^ (-e).toNat : ℕ) : ℚ)

/-- Binary exponent of a positive rational `q`: the integer `e` with
`2 ^ e ≤ q < 2 ^ (e + 1)`. -/
def ilog2 (q : ℚ) : ℤ :=
  if pow2 ((bitLength q.num.natAbs : ℤ) - (bitLength q.den : ℤ)) ≤ q then
    (bitLength q.num.natAbs : ℤ) - (bitLength q.den : ℤ)
  else (bitLength q.num.natAbs : ℤ) - (bitLength q.den : ℤ) - 1

/-- The integer nearest to `x`, a tie going to the even one. -/
def roundEven (x : ℚ) : ℤ :=
  if x - (⌊x⌋ : ℤ) < 1 / 2 then ⌊x⌋
  else if 1 / 2 < x - (⌊x⌋ : ℤ) then ⌊x⌋ + 1
  else if ⌊x⌋ % 2 = 0 then ⌊x⌋ else ⌊x⌋ + 1

/-- The spacing, around the non-zero rational `q`, of the binary floating-point numbers
with `prec` significant bits and least normal exponent `emin`. -/
def quantum (prec : Nat) (emin : ℤ) (q : ℚ) : ℚ :=
  pow2 (max (ilog2 |q|) emin - ((prec : ℤ) - 1))

/-- Rounding to the nearest binary floating-point number with `prec` significant bits and
least normal exponent `emin`, ties to even, the exponent not being bounded above. -/
def roundFloat (prec : Nat) (emin : ℤ) (q : ℚ) : ℚ :=
  if q = 0 then 0 else (roundEven (q / quantum prec emin q) : ℚ) * quantum prec emin q

/-- The rational `q` is an integer multiple of `2 ^ (-1074)`, the least positive binary64
number; every binary64 number is one. -/
def OnGrid (q : ℚ) : Prop := ∃ n : ℤ, q = (n : ℚ) * pow2 (-1074)

/-- A value of type `float64`. -/
inductive Float64 where
  /-- A finite number. -/
  | fin (q : ℚ)
  /-- Positive infinity. -/
  | posInf
  /-- Negative infinity. -/
  | negInf
  /-- Not a number. -/
  | nan
  deriving DecidableEq

namespace Float64

/-- The `float64` result of an operation whose exact result is `q`: `q` rounded to
binary64, or an infinity when the rounded value is `2 ^ 1024` or more in magnitude. -/
def ofRat (q : ℚ) : Float64 :=
  if pow2 1024 ≤ roundFloat 53 (-1022) q then posInf
  else if roundFloat 53 (-1022) q ≤ -pow2 1024 then negInf
  else fin (roundFloat 53 (-1022) q)

/-- The sum `x + y` of two `float64` values. -/
def add : Float64 → Float64 → Float64
  | fin a, fin b => ofRat (a + b)
  | fin _, posInf => posInf
  | fin _, negInf => negInf
  | posInf, fin _ => posInf
  | posInf, posInf => posInf
  | negInf, fin _ => negInf
  | negInf, negInf => negInf
  | posInf, negInf => nan
  | negInf, posInf => nan
  | nan, _ => nan
  | _, nan => nan

/-- The product `x * y` of two `float64` values. -/
def mul : Float64 → Float64 → Float64
  | fin a, fin b => ofRat (a * b)
  | fin a, posInf => if a = 0 then nan else if 0 < a then posInf else negInf
  | fin a, negInf => if a = 0 then nan else if 0 < a then negInf else posInf
  | posInf, fin b => if b = 0 then nan else if 0 < b then posInf else negInf
  | negInf, fin b => if b = 0 then nan else if 0 < b then negInf else posInf
  | posInf, posInf => posInf
  | negInf, negInf => posInf
  | posInf, negInf => negInf
  | negInf, posInf => negInf
  | nan, _ => nan
  | _, nan => nan

/-- The quotient `x / y` of two `float64` values. -/
def div : Float64 → Float64 → Float64
  | fin a, fin b =>
    if b = 0 then (if a = 0 then nan else if 0 < a then posInf else negInf)
    else ofRat (a / b)
  | fin _, posInf => fin 0
  | fin _, negInf => fin 0
  | posInf, fin b => if 0 ≤ b then posInf else negInf
  | negInf, fin b => if 0 ≤ b then negInf else posInf
  | posInf, posInf => nan
  | posInf, negInf => nan
  | negInf, posInf => nan
  | negInf, negInf => nan
  | nan, _ => nan
  | _, nan => nan

/-- The comparison `x <= y` of two `float64` values; it is false when one is NaN. -/
def le : Float64 → Float64 → Prop
  | fin a, fin b => a ≤ b
  | fin _, posInf => True
  | negInf, fin _ => True
  | negInf, negInf => True
  | negInf, posInf => True
  | posInf, posInf => True
  | _, _ => False

/-- The comparison `x < y` of two `float64` values; it is false when one is NaN. -/
def lt : Float64 → Float64 → Prop
  | fin a, fin b => a < b
  | fin _, posInf => True
  | negInf, fin _ => True
  | negInf, posInf => True
  | _, _ => False

instance : Add Float64 := ⟨add⟩

instance : Mul Float64 := ⟨mul⟩

instance : Div Float64 := ⟨div⟩

instance : LE Float64 := ⟨le⟩

instance : LT Float64 := ⟨lt⟩

instance (n : Nat) : OfNat Float64 n := ⟨fin n⟩

instance (x y : Float64) : Decidable (x ≤ y) := by
  cases x <;> cases y <;> (simp only [LE.le, le]; infer_instance)

instance (x y : Float64) : Decidable (x < y) := by
  cases x <;> cases y <;> (simp only [LT.lt, lt]; infer_instance)

/-- The function `math.Round`: a finite value is rounded to the nearest integer, half away
from zero; infinities and NaN are returned unchanged. -/
def Round : Float64 → Float64
  | fin q => fin (EqualWeight.Round q)
  | x => x

/-- The number a finite `float64` stands for; `0` for the infinities and NaN. -/
def toRat : Float64 → ℚ
  | fin q => q
  | _ => 0

/-- The value is not negative: a non-negative number, `+Inf` or NaN. -/
def NotNeg : Float64 → Prop
  | fin q => 0 ≤ q
  | posInf => True
  | nan => True
  | negInf => False

end Float64

/-- The integer `n` is a value of the 64-bit type `int`. -/
def fitsInt (n : ℤ) : Prop := -(2 ^ 63) ≤ n ∧ n < 2 ^ 63

instance (n : ℤ) : Decidable (fitsInt n) := inferInstanceAs (Decidable (_ ∧ _))

/-- The conversion `int(f)` of a `float64` to the 64-bit `int`: the fraction is discarded;
when the result does not fit in 64 bits, or `f` is an infinity or NaN, the result is the
least `int`, `-2^63` (the value amd64 gives; the language leaves it to the
implementation). -/
def toInt : Float64 → ℤ
  | .fin q => if fitsInt (truncToInt q) then truncToInt q else -(2 ^ 63)
  | _ => -(2 ^ 63)

/-! ## `strconv.ParseFloat` -/

/-- The errors the program can observe. -/
inductive Error where
  /-- The reader is exhausted: `io.EOF`. -/
  | EOF
  /-- Any other error reported by `csv.Reader.Read`. -/
  | csv (msg : String)
  /-- A `strconv.NumError` with `strconv.ErrSyntax`: the input is not a number. -/
  | badNumber (input : String)
  /-- A `strconv.NumError` with `strconv.ErrRange`: the input is too large for the size. -/
  | outOfRange (input : String)
  deriving DecidableEq

deriving instance DecidableEq for Except

/-- Value of a decimal digit. -/
def digit? (c : Char) : Option Nat :=
  if '0' ≤ c ∧ c ≤ '9' then some (c.toNat - '0'.toNat) else none

/-- Reads the longest run of decimal digits at the front of the input, appending them to
`acc`; returns the value, the number of digits read and the rest of the input. -/
def readDigits : List Char → Nat → Nat → Nat × Nat × List Char
  | [], acc, n => (acc, n, [])
  | c :: cs, acc, n =>
    match digit? c with
    | some d => readDigits cs (10 * acc + d) (n + 1)
    | none => (acc, n, c :: cs)

/-- Reads an optional sign; `true` stands for a minus sign. -/
def readSign : List Char → Bool × List Char
  | '+' :: cs => (false, cs)
  | '-' :: cs => (true, cs)
  | cs => (false, cs)

/-- Reads `digits [ "." digits ]` with at least one digit overall; returns the digits read
as one natural number, how many of them follow the point, and the rest of the input. -/
def readMantissa (cs : List Char) : Option (Nat × Nat × List Char) :=
  match readDigits cs 0 0 with
  | (ip, n1, '.' :: r2) =>
    match readDigits r2 ip 0 with
    | (m, n2, r3) => if n1 + n2 = 0 then none else some (m, n2, r3)
  | (ip, n1, r1) => if n1 = 0 then none else some (ip, 0, r1)

/-- Reads an optional exponent part `("e" | "E") [sign] digits`. -/
def readExponent : List Char → Option (ℤ × List Char)
  | [] => some (0, [])
  | c :: cs =>
    if c = 'e' ∨ c = 'E' then
      match readSign cs with
      | (neg, r) =>
        match readDigits r 0 0 with
        | (e, n, r') => if n = 0 then none else some (if neg then -(e : ℤ) else (e : ℤ), r')
    else some (0, c :: cs)

/-- The exact value of a decimal floating-point literal, `none` when the input is not one. -/
def readFloat (cs : List Char) : Option ℚ :=
  match readSign cs with
  | (neg, r0) =>
    match readMantissa r0 with
    | none => none
    | some (m, frac, r1) =>
      match readExponent r1 with
      | some (e, []) =>
        let v : ℚ := (m : ℚ) * (10 : ℚ) ^ (e - (frac : ℤ))
        some (if neg then -v else v)
      | _ => none

/-- The function `strconv.ParseFloat` on decimal literals: optional sign, digits with an
optional point, optional exponent.  The result is the value of the literal rounded to the
nearest number of the format, `float32` for `bitSize` 32 and `float64` otherwise; a literal
that rounds beyond the largest number of the format is a range error.  Go also accepts
underscores between digits, hexadecimal literals, infinities and NaN; they are outside the
decimal input of the program and are reported as not being numbers. -/
def ParseFloat (s : String) (bitSize : Nat) : Except Error ℚ :=
  match readFloat s.toList with
  | none => .error (.badNumber s)
  | some v =>
    if bitSize = 32 then
      (if pow2 128 ≤ |roundFloat 24 (-126) v| then .error (.outOfRange s)
        else .ok (roundFloat 24 (-126) v))
    else
      (if pow2 1024 ≤ |roundFloat 53 (-1022) v| then .error (.outOfRange s)
        else .ok (roundFloat 53 (-1022) v))

/-! ## Table decoder -/

/-- One result of `csv.Reader.Read` before the end of the input. -/
inductive ReadResult where
  /-- A record: the fields of one line. -/
  | record (fields : List String)
  /-- An error other than `io.EOF`, for instance a line with a wrong number of fields. -/
  | failure (msg : String)
  deriving DecidableEq

/-- A `*csv.Reader`: the results of its successive `Read` calls; once they are used up
`Read` returns `io.EOF`. -/
abbrev Reader := List ReadResult

/-- How a call of `readCSV` ends. -/
inductive Result where
  /-- Normal return `stocks, largest, nil`. -/
  | ok (stocks : List Stock) (largest : ℚ)
  /-- Error return `nil, 0, e`. -/
  | err (e : Error)
  /-- The call `log.Fatal(e)`: the message is logged and the process exits. -/
  | fatal (e : Error)
  /-- A run-time panic: a record is indexed out of range. -/
  | panic
  deriving DecidableEq

/-- The five field indexes `symMap, nameMap, sectMap, pMap, capMap`. -/
structure Columns where
  symMap : Nat
  nameMap : Nat
  sectMap : Nat
  pMap : Nat
  capMap : Nat
  deriving DecidableEq

/-- One iteration of the header loop: the `switch value` statement. -/
def headerStep (c : Columns) (index : Nat) (value : String) : Columns :=
  if value = "Symbol" then { c with symMap := index }
  else if value = "Name" then { c with nameMap := index }
  else if value = "Sector" then { c with sectMap := index }
  else if value = "Price" then { c with pMap := index }
  else if value = "Market Cap" then { c with capMap := index }
  else c

/-- The loop `for index, value := range first`, from position `index` on. -/
def scanHeader : List String → Nat → Columns → Columns
  | [], _, c => c
  | value :: rest, index, c => scanHeader rest (index + 1) (headerStep c index value)

/-- The field indexes computed from the table header; all five start at `0`. -/
def fieldIndexes (first : List String) : Columns :=
  scanHeader first 0 ⟨0, 0, 0, 0, 0⟩

/-- The row loop of `readCSV`, with the current values of `stocks` and `largest`. -/
def readRows (c : Columns) : Reader → List Stock → ℚ → Result
  | [], stocks, largest => .ok stocks largest
  | .failure msg :: _, _, _ => .err (.csv msg)
  | .record record :: rest, stocks, largest =>
    match record[c.pMap]? with
    | none => .panic
    | some priceField =>
      match ParseFloat priceField 32 with
      | .error e2 => .fatal e2
      | .ok price =>
        match record[c.capMap]? with
        | none => .panic
        | some capField =>
          match ParseFloat capField 64 with
          | .error e3 => .fatal e3
          | .ok mktCap =>
            match record[c.symMap]?, record[c.nameMap]?, record[c.sectMap]? with
            | some sym, some name, some sect =>
              readRows c rest (stocks ++ [⟨sym, name, sect, price, mktCap⟩]) (max largest mktCap)
            | _, _, _ => .panic

/-- The record `record` is decoded by the body of the row loop, with the field indexes `c`,
into the `Stock` literal `s`: the three text fields are copied and the two numeric fields
are the parsed values. -/
def DecodesTo (c : Columns) (record : List String) (s : Stock) : Prop :=
  record[c.symMap]? = some s.Symbol ∧ record[c.nameMap]? = some s.Name ∧
    record[c.sectMap]? = some s.Sector ∧
    (∃ f, record[c.pMap]? = some f ∧ ParseFloat f 32 = .ok s.Price) ∧
    (∃ f, record[c.capMap]? = some f ∧ ParseFloat f 64 = .ok s.MarketCap)

/-- The function `readCSV`. -/
def readCSV (reader : Reader) : Result :=
  match reader with
  | [] => .err .EOF
  | .failure msg :: _ => .err (.csv msg)
  | .record first :: rest => readRows (fieldIndexes first) rest [] 0

/-! ## Weight calculator, budget calculator, allocator -/

/-- The function `computeRelative`: the loop `m[stock] = largest / stock.MarketCap` over
`data`, a `float64` division. -/
def computeRelative (data : List Stock) (largest : ℚ) : GoMap Stock Float64 :=
  data.foldl (fun m stock => m.set stock (Float64.fin largest / Float64.fin stock.MarketCap))
    GoMap.make

/-- The function `minBudget`: the loop `cost += float64(stock.Price) * weight` over the
entries of the table, from `cost = 0`.  The conversion of the price to `float64` is exact. -/
def minBudget (weights : GoMap Stock Float64) : Float64 :=
  weights.entries.foldl (fun cost sw => cost + Float64.fin sw.1.Price * sw.2) 0

/-- The function `shares`: `multiple := portfolio / minBudget`, then the loop
`m[stock] = int(math.Round(weight * multiple))` over the entries of the table. -/
def shares (portfolio : Float64) (minBudget : Float64) (weights : GoMap Stock Float64) :
    GoMap Stock ℤ :=
  let multiple := portfolio / minBudget
  weights.entries.foldl (fun m sw => m.set sw.1 (toInt (Float64.Round (sw.2 * multiple))))
    GoMap.make

/-! ## Scenario data -/

/-- Header of Scenario A. -/
def headerA : List String := ["Symbol", "Name", "Sector", "Price", "Market Cap"]

/-- Data rows of Scenario A. -/
def rowsA : List (List String) :=
  [["AAA", "Alpha Co", "Tech", "10.0", "1000000"], ["BBB", "Beta Co", "Energy", "5.0", "500000"]]

/-- Reader of Scenario A: the header followed by the rows of AAA and BBB. -/
def readerA : Reader := .record headerA :: rowsA.map .record

/-- The equity AAA of Scenario A. -/
def stockAAA : Stock := ⟨"AAA", "Alpha Co", "Tech", 10, 1000000⟩

/-- The equity BBB of Scenario A. -/
def stockBBB : Stock := ⟨"BBB", "Beta Co", "Energy", 5, 500000⟩

/-- The weight table of Scenario A. -/
def weightsA : GoMap Stock Float64 := computeRelative [stockAAA, stockBBB] 1000000

/-- Reader with a single data row whose market cap is negative. -/
def readerNeg : Reader :=
  [.record headerA, .record ["AAA", "Alpha Co", "Tech", "10.0", "-5"]]

/-- The equity decoded from the data row of `readerNeg`. -/
def stockNeg : Stock := ⟨"AAA", "Alpha Co", "Tech", 10, -5⟩

/-- The five column names in the reference order. -/
def columnNames : Fin 5 → String := ![ "Symbol", "Name", "Sector", "Price", "Market Cap"]

/-- The record whose `i`-th field is field `p i` of the five-field row `r`. -/
def permuteFields (p : Equiv.Perm (Fin 5)) (r : Fin 5 → String) : List String :=
  List.ofFn (fun i => r (p i))

/-- The column order of Scenario D: Market Cap, Symbol, Price, Name, Sector. -/
def scenarioDPerm : Equiv.Perm (Fin 5) :=
  ⟨![4, 0, 3, 1, 2], ![1, 3, 4, 2, 0], by decide, by decide⟩

/-- The reader that gives a header and then data rows, all columns permuted by `p`. -/
def permutedReader (p : Equiv.Perm (Fin 5)) (header : Fin 5 → String)
    (rows : List (Fin 5 → String)) : Reader :=
  .record (permuteFields p header) :: rows.map (fun r => .record (permuteFields p r))

/-- The equity `s` with its market cap multiplied by `k`, the product being exact. -/
def rescale (k : ℚ) (s : Stock) : Stock := { s with MarketCap := k * s.MarketCap }

/-- Header without a Market Cap column. -/
def headerNoCap : List String := ["Price", "Symbol", "Name", "Sector"]

/-- Reader with the header `headerNoCap` and one data row. -/
def readerNoCap : Reader :=
  [.record headerNoCap, .record ["10.0", "AAA", "Alpha Co", "Tech"]]

/-- The equity decoded from the data row of `readerNoCap`: its market cap is the value of
the first field, the price. -/
def stockNoCap : Stock := ⟨"AAA", "Alpha Co", "Tech", 10, 10⟩

/-- Data rows of Scenario B: the second row has Market Cap `0`. -/
def rowsZero : List (List String) :=
  [["AAA", "Alpha Co", "Tech", "10.0", "1000000"], ["ZZZ", "Zeta Co", "Retail", "5.0", "0"]]

/-- Reader of Scenario B. -/
def readerZero : Reader := .record headerA :: rowsZero.map .record

/-- The equity of Scenario B whose market cap is `0`. -/
def stockZero : Stock := ⟨"ZZZ", "Zeta Co", "Retail", 5, 0⟩


/-- An equity with price `1` and market cap `1`. -/
def stockOne : Stock := ⟨"ONE", "One Co", "Tech", 1, 1⟩

/-- The weight table of the single equity `stockOne`: its weight is `1`. -/
def weightsOne : GoMap Stock Float64 := computeRelative [stockOne] 1

/-- Reader with one data row whose price is `1e-30`. -/
def readerTiny : Reader :=
  [.record headerA, .record ["AAA", "Alpha Co", "Tech", "1e-30", "1000000"]]

/-- The equity decoded from the data row of `readerTiny`; its price is the `float32`
nearest to `1e-30`. -/
def stockTiny : Stock := ⟨"AAA", "Alpha Co", "Tech", roundFloat 24 (-126) (1 / 10 ^ 30), 1000000⟩

/-- An equity with price `1` and market cap `2`. -/
def stockTwo : Stock := ⟨"TWO", "Two Co", "Energy", 1, 2⟩

/-- An equity with price `1` and market cap `3`. -/
def stockThree : Stock := ⟨"THREE", "Three Co", "Retail", 1, 3⟩

/-- The `float64` nearest to `0.1`. -/
def tenth : ℚ := roundFloat 53 (-1022) (1 / 10)

/-- The equity `s` with its market cap multiplied by `k` in `float64` arithmetic: the
product is rounded. -/
def rescaleFloat (k : ℚ) (s : Stock) : Stock :=
  { s with MarketCap := roundFloat 53 (-1022) (k * s.MarketCap) }

/-- An equity with price `1` whose market cap is `10^16`. -/
def stockLightB : Stock := ⟨"BBB", "Beta Co", "Energy", 1, 10000000000000000⟩

/-- A second equity with price `1` whose market cap is `10^16`. -/
def stockLightC : Stock := ⟨"CCC", "Gamma Co", "Retail", 1, 10000000000000000⟩

/-- An equity with price `3` and market cap `1`. -/
def stockTriple : Stock := ⟨"TRI", "Triple Co", "Tech", 3, 1⟩

/-- An equity with price `7` and market cap `1`. -/
def stockSeven : Stock := ⟨"SEV", "Seven Co", "Tech", 7, 1⟩
/-! ## Lemmas on maps -/

section MapLemmas

variable {κ ν : Type} [DecidableEq κ]

theorem lookupList_setList (k k' : κ) (v : ν) (l : List (κ × ν)) :
    lookupList k' (setList k v l) = if k = k' then some v else lookupList k' l := by
  induction l with
  | nil => simp [setList, lookupList]
  | cons hd tl ih =>
    obtain ⟨a, b⟩ := hd
    by_cases h : a = k
    · subst h
      by_cases h' : a = k' <;> simp [setList, lookupList, h']
    · by_cases h' : a = k'
      · subst h'
        have hk : ¬ k = a := fun e => h e.symm
        simp [setList, lookupList, h, hk]
      · simp [setList, lookupList, h, h', ih]

theorem GoMap.get?_make (k : κ) : (GoMap.make : GoMap κ ν).get? k = none := rfl

theorem GoMap.get?_set (m : GoMap κ ν) (k k' : κ) (v : ν) :
    (m.set k v).get? k' = if k = k' then some v else m.get? k' :=
  lookupList_setList k k' v m.entries

theorem lookupList_eq_none_iff (k : κ) (l : List (κ × ν)) :
    lookupList k l = none ↔ k ∉ l.map Prod.fst := by
  induction l with
  | nil => simp [lookupList]
  | cons hd tl ih =>
    obtain ⟨a, b⟩ := hd
    by_cases h : a = k
    · simp [lookupList, h]
    · have hk : ¬ k = a := fun e => h e.symm
      simp [lookupList, h, hk, ih]

theorem lookupList_eq_some_iff (k : κ) (v : ν) (l : List (κ × ν))
    (hl : (l.map Prod.fst).Nodup) : lookupList k l = some v ↔ (k, v) ∈ l := by
  induction l with
  | nil => simp [lookupList]
  | cons hd tl ih =>
    obtain ⟨a, b⟩ := hd
    rw [List.map_cons, List.nodup_cons] at hl
    by_cases h : a = k
    · subst h
      have hnot : ∀ w, (a, w) ∉ tl := fun w hw =>
        hl.1 (List.mem_map.2 ⟨(a, w), hw, rfl⟩)
      simp only [lookupList, if_true, Option.some.injEq, List.mem_cons, Prod.mk.injEq, true_and]
      constructor
      · intro e
        exact Or.inl e.symm
      · rintro (e | e)
        · exact e.symm
        · exact absurd e (hnot v)
    · have hk : ¬ k = a := fun e => h e.symm
      simp [lookupList, h, hk, ih hl.2]

/-- A `range` loop that assigns `m[k] = f k v` for every binding `(k, v)` of a list with
distinct keys. -/
theorem get?_foldl_set {μ : Type} (f : κ → ν → μ) (l : List (κ × ν))
    (hl : (l.map Prod.fst).Nodup) (acc : GoMap κ μ) (k : κ) :
    (l.foldl (fun m kv => m.set kv.1 (f kv.1 kv.2)) acc).get? k =
      match lookupList k l with
      | some v => some (f k v)
      | none => acc.get? k := by
  induction l generalizing acc with
  | nil => simp [lookupList]
  | cons hd tl ih =>
    obtain ⟨a, b⟩ := hd
    rw [List.map_cons, List.nodup_cons] at hl
    rw [List.foldl_cons, ih hl.2]
    by_cases h : a = k
    · subst h
      have hn : lookupList a tl = none := (lookupList_eq_none_iff a tl).2 hl.1
      simp [hn, lookupList, GoMap.get?_set]
    · simp only [lookupList, h, if_false, GoMap.get?_set]

/-- A loop that assigns `m[k] = f k` for every element `k` of a list. -/
theorem get?_foldl_set_keys (f : κ → ν) (l : List κ) (acc : GoMap κ ν) (k : κ) :
    (l.foldl (fun m x => m.set x (f x)) acc).get? k =
      if k ∈ l then some (f k) else acc.get? k := by
  induction l generalizing acc with
  | nil => simp
  | cons a tl ih =>
    rw [List.foldl_cons, ih, GoMap.get?_set]
    by_cases hk : k ∈ tl
    · simp [hk]
    · by_cases h : a = k
      · subst h
        simp
      · have h' : ¬ k = a := fun e => h e.symm
        simp [hk, h, h']

end MapLemmas


/-- Two maps with the same bindings, in whatever order, give the same lookups. -/
theorem GoMap.get?_eq_of_perm {κ ν : Type} [DecidableEq κ] (m m' : GoMap κ ν)
    (h : m'.entries.Perm m.entries) (k : κ) : m'.get? k = m.get? k := by
  unfold GoMap.get?
  cases h1 : lookupList k m.entries with
  | none =>
    rw [lookupList_eq_none_iff] at h1 ⊢
    exact fun hc => h1 ((h.map Prod.fst).mem_iff.1 hc)
  | some v =>
    rw [lookupList_eq_some_iff _ _ _ m.nodupKeys] at h1
    rw [lookupList_eq_some_iff _ _ _ m'.nodupKeys]
    exact h.mem_iff.2 h1
/-! ## Lemmas on rounding to an integer -/

theorem truncToInt_intCast (n : ℤ) : truncToInt (n : ℚ) = n := by
  unfold truncToInt
  split <;> simp

/-- On a finite value, `math.Round` followed by the integer part gives an integer nearest
to `x`, and at a tie the one of larger magnitude. -/
theorem truncToInt_Round_spec (x : ℚ) :
    |x - (truncToInt (Round x) : ℚ)| ≤ 1 / 2 ∧
      (|x - (truncToInt (Round x) : ℚ)| = 1 / 2 → |x| < |(truncToInt (Round x) : ℚ)|) := by
  by_cases hx : 0 ≤ x
  · have hfl : ((⌊x⌋ : ℤ) : ℚ) ≤ x := Int.floor_le x
    have hlt : x < ((⌊x⌋ : ℤ) : ℚ) + 1 := Int.lt_floor_add_one x
    have hf0 : (0 : ℚ) ≤ ((⌊x⌋ : ℤ) : ℚ) := by exact_mod_cast Int.floor_nonneg.2 hx
    have habs : |x - ((⌊x⌋ : ℤ) : ℚ)| = x - ((⌊x⌋ : ℤ) : ℚ) := abs_of_nonneg (by linarith)
    by_cases hhalf : x - ((⌊x⌋ : ℤ) : ℚ) ≥ 1 / 2
    · have hR : Round x = ((⌊x⌋ + 1 : ℤ) : ℚ) := by
        simp only [Round, Trunc, hx, if_true, habs, hhalf, Copysign]
        push_cast
        simp
      rw [hR, truncToInt_intCast]
      push_cast
      have h1 : |x - (((⌊x⌋ : ℤ) : ℚ) + 1)| = ((⌊x⌋ : ℤ) : ℚ) + 1 - x := by
        rw [abs_sub_comm]
        exact abs_of_nonneg (by linarith)
      rw [h1, abs_of_nonneg hx, abs_of_nonneg (by linarith)]
      exact ⟨by linarith, fun _ => hlt⟩
    · have hR : Round x = ((⌊x⌋ : ℤ) : ℚ) := by
        simp only [Round, Trunc, hx, if_true, habs, hhalf, if_false]
      rw [hR, truncToInt_intCast, habs]
      push_neg at hhalf
      exact ⟨le_of_lt hhalf, fun e => absurd e (ne_of_lt hhalf)⟩
  · have hx' : x < 0 := lt_of_not_ge hx
    have hcl : x ≤ ((⌈x⌉ : ℤ) : ℚ) := Int.le_ceil x
    have hlt : ((⌈x⌉ : ℤ) : ℚ) < x + 1 := Int.ceil_lt_add_one x
    have hc0 : ((⌈x⌉ : ℤ) : ℚ) ≤ 0 := by exact_mod_cast Int.ceil_le.2 (by simpa using hx'.le)
    have habs : |x - ((⌈x⌉ : ℤ) : ℚ)| = ((⌈x⌉ : ℤ) : ℚ) - x := by
      rw [abs_sub_comm]
      exact abs_of_nonneg (by linarith)
    by_cases hhalf : ((⌈x⌉ : ℤ) : ℚ) - x ≥ 1 / 2
    · have hR : Round x = ((⌈x⌉ - 1 : ℤ) : ℚ) := by
        simp only [Round, Trunc, hx, if_false, habs, hhalf, if_true, Copysign]
        push_cast
        simp
        ring
      rw [hR, truncToInt_intCast]
      push_cast
      have h1 : |x - (((⌈x⌉ : ℤ) : ℚ) - 1)| = x - (((⌈x⌉ : ℤ) : ℚ) - 1) :=
        abs_of_nonneg (by linarith)
      rw [h1, abs_of_neg hx', abs_of_nonpos (by linarith)]
      exact ⟨by linarith, fun _ => by linarith⟩
    · have hR : Round x = ((⌈x⌉ : ℤ) : ℚ) := by
        simp only [Round, Trunc, hx, if_false, habs, hhalf]
      rw [hR, truncToInt_intCast, habs]
      push_neg at hhalf
      exact ⟨le_of_lt hhalf, fun e => absurd e (ne_of_lt hhalf)⟩

theorem truncToInt_Round_nonneg (x : ℚ) (hx : 0 ≤ x) : 0 ≤ truncToInt (Round x) := by
  have h := (truncToInt_Round_spec x).1
  have h2 := (abs_le.1 h).2
  by_contra hc
  have hle : truncToInt (Round x) ≤ -1 := by omega
  have hq : ((truncToInt (Round x) : ℤ) : ℚ) ≤ -1 := by exact_mod_cast hle
  linarith

theorem truncToInt_Round_ge_one (x : ℚ) (hx : 1 ≤ x) : 1 ≤ truncToInt (Round x) := by
  have h := (abs_le.1 (truncToInt_Round_spec x).1).2
  by_contra hc
  have hle : truncToInt (Round x) ≤ 0 := by omega
  have hq : ((truncToInt (Round x) : ℤ) : ℚ) ≤ 0 := by exact_mod_cast hle
  linarith

/-- An integer within less than one half of `x` is the value of `math.Round` at `x`. -/
theorem truncToInt_Round_eq_of_near (x : ℚ) (k : ℤ) (h : |x - (k : ℚ)| < 1 / 2) :
    truncToInt (Round x) = k := by
  have h1 := abs_le.1 (truncToInt_Round_spec x).1
  have h2 := abs_lt.1 h
  have hlt : ((truncToInt (Round x) : ℤ) : ℚ) < (k : ℚ) + 1 := by linarith
  have hgt : (k : ℚ) - 1 < ((truncToInt (Round x) : ℤ) : ℚ) := by linarith
  have hlt' : truncToInt (Round x) < k + 1 := by exact_mod_cast hlt
  have hgt' : k - 1 < truncToInt (Round x) := by exact_mod_cast hgt
  omega

/-- The value `int(math.Round(x))` is monotone in `x` on finite values. -/
theorem truncToInt_Round_mono (x y : ℚ) (hxy : x ≤ y) :
    truncToInt (Round x) ≤ truncToInt (Round y) := by
  obtain ⟨hx1, hx2⟩ := truncToInt_Round_spec x
  obtain ⟨hy1, hy2⟩ := truncToInt_Round_spec y
  by_contra hc
  have hlt : truncToInt (Round y) + 1 ≤ truncToInt (Round x) := by omega
  have hq : ((truncToInt (Round y) : ℤ) : ℚ) + 1 ≤ ((truncToInt (Round x) : ℤ) : ℚ) := by
    exact_mod_cast hlt
  have hxl := (abs_le.1 hx1).1
  have hyu := (abs_le.1 hy1).2
  have ex : x - ((truncToInt (Round x) : ℤ) : ℚ) = -(1 / 2) := by linarith
  have ey : y - ((truncToInt (Round y) : ℤ) : ℚ) = 1 / 2 := by linarith
  have hx3 := hx2 (by rw [ex, abs_neg]; norm_num)
  have hy3 := hy2 (by rw [ey]; norm_num)
  have exy : x = y := by linarith
  by_cases h0 : 0 ≤ y
  · have hn : (0 : ℚ) ≤ ((truncToInt (Round y) : ℤ) : ℚ) := by
      have h1 : (-1 : ℚ) < ((truncToInt (Round y) : ℤ) : ℚ) := by linarith
      have h2 : (-1 : ℤ) < truncToInt (Round y) := by exact_mod_cast h1
      have h3 : (0 : ℤ) ≤ truncToInt (Round y) := by omega
      exact_mod_cast h3
    rw [abs_of_nonneg h0, abs_of_nonneg hn] at hy3
    linarith
  · have h0' : x < 0 := by linarith [lt_of_not_ge h0]
    have hn : ((truncToInt (Round x) : ℤ) : ℚ) ≤ 0 := by
      have h1 : ((truncToInt (Round x) : ℤ) : ℚ) < 1 := by linarith
      have h2 : truncToInt (Round x) < (1 : ℤ) := by exact_mod_cast h1
      have h3 : truncToInt (Round x) ≤ (0 : ℤ) := by omega
      exact_mod_cast h3
    rw [abs_of_neg h0', abs_of_nonpos hn] at hx3
    linarith

/-! ## Lemmas on binary rounding -/

theorem bitsAux_zero (fuel : Nat) : bitsAux fuel 0 = 0 := by
  cases fuel <;> simp [bitsAux]

theorem bitsAux_spec (fuel n : Nat) (h : n ≤ fuel) :
    n < 2 ^ bitsAux fuel n ∧ (n ≠ 0 → 2 ^ (bitsAux fuel n - 1) ≤ n) := by
  induction fuel generalizing n with
  | zero =>
    have h0 : n = 0 := by omega
    subst h0
    simp [bitsAux]
  | succ fuel ih =>
    by_cases hn : n = 0
    · subst hn
      simp [bitsAux]
    · obtain ⟨h1, h2⟩ := ih (n / 2) (by omega)
      have hb : bitsAux (fuel + 1) n = bitsAux fuel (n / 2) + 1 := by
        simp [bitsAux, hn]
      rw [hb]
      constructor
      · rw [pow_succ]
        generalize 2 ^ bitsAux fuel (n / 2) = P at h1
        omega
      · intro _
        rw [Nat.add_sub_cancel]
        by_cases hd : n / 2 = 0
        · rw [hd, bitsAux_zero, pow_zero]
          omega
        · have h3 := h2 hd
          have hpos : bitsAux fuel (n / 2) ≠ 0 := by
            intro e
            rw [e, pow_zero] at h1
            omega
          obtain ⟨b, hb'⟩ := Nat.exists_eq_succ_of_ne_zero hpos
          rw [hb', Nat.succ_sub_one] at h3
          rw [hb', Nat.succ_eq_add_one, pow_succ]
          generalize 2 ^ b = P at h3
          omega

theorem bitLength_spec (n : Nat) (hn : n ≠ 0) :
    ∃ b : Nat, bitLength n = b + 1 ∧ 2 ^ b ≤ n ∧ n < 2 ^ (b + 1) := by
  obtain ⟨h1, h2⟩ := bitsAux_spec n n (le_refl n)
  have hpos : bitLength n ≠ 0 := by
    intro e
    unfold bitLength at e
    rw [e, pow_zero] at h1
    omega
  obtain ⟨b, hb⟩ := Nat.exists_eq_succ_of_ne_zero hpos
  refine ⟨b, hb, ?_, ?_⟩
  · have h3 := h2 hn
    unfold bitLength at hb
    rw [hb, Nat.succ_sub_one] at h3
    exact h3
  · unfold bitLength at hb
    rw [hb] at h1
    exact h1

theorem pow2_eq_zpow (e : ℤ) : pow2 e = (2 : ℚ) ^ e := by
  unfold pow2
  split
  · rename_i h
    obtain ⟨n, rfl⟩ := Int.eq_ofNat_of_zero_le h
    simp
  · rename_i h
    obtain ⟨n, hn⟩ := Int.eq_ofNat_of_zero_le (show 0 ≤ -e by omega)
    have he : e = -(n : ℤ) := by omega
    subst he
    simp

theorem pow2_pos (e : ℤ) : 0 < pow2 e := by
  rw [pow2_eq_zpow]
  positivity

theorem pow2_add (a b : ℤ) : pow2 (a + b) = pow2 a * pow2 b := by
  simp only [pow2_eq_zpow]
  exact zpow_add₀ (by norm_num) a b

theorem pow2_one : pow2 1 = 2 := by
  rw [pow2_eq_zpow]
  norm_num

theorem pow2_le_pow2 {a b : ℤ} (h : a ≤ b) : pow2 a ≤ pow2 b := by
  simp only [pow2_eq_zpow]
  exact zpow_le_zpow_right₀ (by norm_num) h

theorem pow2_lt_pow2_iff {a b : ℤ} : pow2 a < pow2 b ↔ a < b := by
  simp only [pow2_eq_zpow]
  exact zpow_lt_zpow_iff_right₀ (by norm_num)

theorem pow2_natCast (n : Nat) : pow2 (n : ℤ) = ((2 ^ n : ℤ) : ℚ) := by
  rw [pow2_eq_zpow]
  push_cast
  exact zpow_natCast 2 n

/-- The binary exponent brackets a positive rational between two powers of two. -/
theorem ilog2_spec (q : ℚ) (hq : 0 < q) : pow2 (ilog2 q) ≤ q ∧ q < pow2 (ilog2 q + 1) := by
  have hnum : 0 < q.num := Rat.num_pos.2 hq
  have hn0 : q.num.natAbs ≠ 0 := by omega
  obtain ⟨a, ha, ha1, ha2⟩ := bitLength_spec q.num.natAbs hn0
  obtain ⟨b, hb, hb1, hb2⟩ := bitLength_spec q.den q.den_nz
  have hqe : q = (q.num.natAbs : ℚ) / (q.den : ℚ) := by
    have hcast : ((q.num.natAbs : ℕ) : ℚ) = (q.num : ℚ) := by
      rw [← Int.cast_natCast, Int.natAbs_of_nonneg hnum.le]
    rw [hcast]
    exact (Rat.num_div_den q).symm
  have hdpos : (0 : ℚ) < (q.den : ℚ) := by exact_mod_cast q.den_pos
  have ha1' : (2 : ℚ) ^ a ≤ (q.num.natAbs : ℚ) := by exact_mod_cast ha1
  have ha2' : (q.num.natAbs : ℚ) < 2 ^ (a + 1) := by exact_mod_cast ha2
  have hb1' : (2 : ℚ) ^ b ≤ (q.den : ℚ) := by exact_mod_cast hb1
  have hb2' : (q.den : ℚ) < 2 ^ (b + 1) := by exact_mod_cast hb2
  have hA : (0 : ℚ) < 2 ^ a := by positivity
  have hB : (0 : ℚ) < 2 ^ b := by positivity
  have he0 : (bitLength q.num.natAbs : ℤ) - (bitLength q.den : ℤ) = (a : ℤ) - (b : ℤ) := by
    rw [ha, hb]
    push_cast
    ring
  have hpw : ∀ e : ℤ, e = (a : ℤ) - (b : ℤ) → pow2 e = (2 : ℚ) ^ a / 2 ^ b := by
    intro e he
    rw [he, pow2_eq_zpow, zpow_sub₀ (by norm_num), zpow_natCast, zpow_natCast]
  have hlow : pow2 ((a : ℤ) - (b : ℤ) - 1) ≤ q := by
    have : pow2 ((a : ℤ) - (b : ℤ) - 1) = (2 : ℚ) ^ a / 2 ^ b / 2 := by
      rw [sub_eq_add_neg, pow2_add, hpw _ rfl, pow2_eq_zpow]
      norm_num
      ring
    rw [this, hqe, div_div, div_le_div_iff₀ (by positivity) hdpos]
    rw [pow_succ] at hb2'
    nlinarith
  have hhigh : q < pow2 ((a : ℤ) - (b : ℤ) + 1) := by
    have : pow2 ((a : ℤ) - (b : ℤ) + 1) = (2 : ℚ) ^ a / 2 ^ b * 2 := by
      rw [pow2_add, hpw _ rfl, pow2_one]
    rw [this, hqe, div_mul_eq_mul_div, div_lt_div_iff₀ hdpos hB]
    rw [pow_succ] at ha2'
    nlinarith
  unfold ilog2
  rw [he0]
  split
  · rename_i h
    exact ⟨h, hhigh⟩
  · rename_i h
    refine ⟨hlow, ?_⟩
    rw [sub_add_cancel]
    exact lt_of_not_ge h

theorem ilog2_mono (q₁ q₂ : ℚ) (h1 : 0 < q₁) (h : q₁ ≤ q₂) : ilog2 q₁ ≤ ilog2 q₂ := by
  have ha := (ilog2_spec q₁ h1).1
  have hb := (ilog2_spec q₂ (lt_of_lt_of_le h1 h)).2
  have hlt : pow2 (ilog2 q₁) < pow2 (ilog2 q₂ + 1) := lt_of_le_of_lt (le_trans ha h) hb
  have := pow2_lt_pow2_iff.1 hlt
  omega

theorem roundEven_err (x : ℚ) : |x - (roundEven x : ℚ)| ≤ 1 / 2 := by
  have h1 := Int.floor_le x
  have h2 := Int.lt_floor_add_one x
  unfold roundEven
  split_ifs <;> rw [abs_le] <;> push_cast <;> constructor <;> linarith

theorem roundEven_intCast (n : ℤ) : roundEven (n : ℚ) = n := by
  simp [roundEven]

theorem roundEven_mono {x y : ℚ} (h : x ≤ y) : roundEven x ≤ roundEven y := by
  by_contra hc
  have hlt : roundEven y + 1 ≤ roundEven x := by omega
  have hq : ((roundEven y : ℤ) : ℚ) + 1 ≤ (roundEven x : ℚ) := by exact_mod_cast hlt
  have hx := (abs_le.1 (roundEven_err x)).1
  have hy := (abs_le.1 (roundEven_err y)).2
  have exy : x = y := by linarith
  subst exy
  omega

theorem roundEven_nonneg {x : ℚ} (h : 0 ≤ x) : 0 ≤ roundEven x := by
  have h1 := roundEven_mono h
  have h2 : roundEven (0 : ℚ) = 0 := by simpa using roundEven_intCast 0
  omega

theorem quantum_pos (prec : Nat) (emin : ℤ) (q : ℚ) : 0 < quantum prec emin q :=
  pow2_pos _

theorem roundFloat_of_ne_zero (prec : Nat) (emin : ℤ) (q : ℚ) (hq : q ≠ 0) :
    roundFloat prec emin q = (roundEven (q / quantum prec emin q) : ℚ) * quantum prec emin q := by
  unfold roundFloat
  rw [if_neg hq]

theorem roundFloat_nonneg (prec : Nat) (emin : ℤ) (q : ℚ) (hq : 0 ≤ q) :
    0 ≤ roundFloat prec emin q := by
  unfold roundFloat
  split
  · exact le_refl 0
  · have h := roundEven_nonneg (div_nonneg hq (quantum_pos prec emin q).le)
    have h' : (0 : ℚ) ≤ (roundEven (q / quantum prec emin q) : ℚ) := by exact_mod_cast h
    exact mul_nonneg h' (quantum_pos prec emin q).le

/-- A positive number rounds to at most the next power of two above it. -/
theorem roundFloat_le_pow2 (prec : Nat) (emin : ℤ) (q : ℚ) (hq : 0 < q) :
    roundFloat prec emin q ≤ pow2 (max (ilog2 q) emin + 1) := by
  rw [roundFloat_of_ne_zero prec emin q (ne_of_gt hq)]
  have hQ := quantum_pos prec emin q
  have habs : |q| = q := abs_of_pos hq
  have hsplit : pow2 (max (ilog2 q) emin + 1) = pow2 (prec : ℤ) * quantum prec emin q := by
    unfold quantum
    rw [habs, ← pow2_add]
    congr 1
    ring
  have hlt : q < pow2 (max (ilog2 q) emin + 1) :=
    lt_of_lt_of_le (ilog2_spec q hq).2 (pow2_le_pow2 (by omega))
  have hdiv : q / quantum prec emin q ≤ ((2 ^ prec : ℤ) : ℚ) := by
    rw [← pow2_natCast, div_le_iff₀ hQ, ← hsplit]
    exact hlt.le
  have hr := roundEven_mono hdiv
  rw [roundEven_intCast] at hr
  have hr' : (roundEven (q / quantum prec emin q) : ℚ) ≤ ((2 ^ prec : ℤ) : ℚ) := by
    exact_mod_cast hr
  rw [hsplit, pow2_natCast]
  exact mul_le_mul_of_nonneg_right hr' hQ.le

/-- A positive number in the normal range rounds to at least the power of two below it. -/
theorem pow2_le_roundFloat (prec : Nat) (emin : ℤ) (q : ℚ) (hprec : 1 ≤ prec) (hq : 0 < q)
    (he : emin ≤ ilog2 q) : pow2 (ilog2 q) ≤ roundFloat prec emin q := by
  rw [roundFloat_of_ne_zero prec emin q (ne_of_gt hq)]
  have hQ := quantum_pos prec emin q
  have habs : |q| = q := abs_of_pos hq
  obtain ⟨p, hp⟩ : ∃ p : Nat, prec = p + 1 := ⟨prec - 1, by omega⟩
  have hsplit : pow2 (ilog2 q) = pow2 (p : ℤ) * quantum prec emin q := by
    unfold quantum
    rw [habs, ← pow2_add, max_eq_left he, hp]
    congr 1
    push_cast
    ring
  have hdiv : ((2 ^ p : ℤ) : ℚ) ≤ q / quantum prec emin q := by
    rw [← pow2_natCast, le_div_iff₀ hQ, ← hsplit]
    exact (ilog2_spec q hq).1
  have hr := roundEven_mono hdiv
  rw [roundEven_intCast] at hr
  have hr' : ((2 ^ p : ℤ) : ℚ) ≤ (roundEven (q / quantum prec emin q) : ℚ) := by
    exact_mod_cast hr
  rw [hsplit, pow2_natCast]
  exact mul_le_mul_of_nonneg_right hr' hQ.le

/-- Rounding to a binary format is monotone on the non-negative numbers. -/
theorem roundFloat_mono (prec : Nat) (emin : ℤ) (hprec : 1 ≤ prec) (q₁ q₂ : ℚ)
    (h0 : 0 ≤ q₁) (h : q₁ ≤ q₂) : roundFloat prec emin q₁ ≤ roundFloat prec emin q₂ := by
  rcases eq_or_lt_of_le h0 with h1 | h1
  · rw [← h1]
    have hz : roundFloat prec emin 0 = 0 := by simp [roundFloat]
    rw [hz]
    exact roundFloat_nonneg prec emin q₂ (le_trans h0 h)
  · have h2 : 0 < q₂ := lt_of_lt_of_le h1 h
    have hlog := ilog2_mono q₁ q₂ h1 h
    rcases eq_or_lt_of_le (max_le_max hlog (le_refl emin)) with hE | hE
    · have hQ : quantum prec emin q₁ = quantum prec emin q₂ := by
        unfold quantum
        rw [abs_of_pos h1, abs_of_pos h2, hE]
      rw [roundFloat_of_ne_zero prec emin q₁ (ne_of_gt h1),
        roundFloat_of_ne_zero prec emin q₂ (ne_of_gt h2), hQ]
      have hQ2 := quantum_pos prec emin q₂
      have hr := roundEven_mono (div_le_div_of_nonneg_right h hQ2.le)
      have hr' : (roundEven (q₁ / quantum prec emin q₂) : ℚ)
          ≤ (roundEven (q₂ / quantum prec emin q₂) : ℚ) := by exact_mod_cast hr
      exact mul_le_mul_of_nonneg_right hr' hQ2.le
    · have he2 : emin ≤ ilog2 q₂ := by
        by_contra hc
        have hm : max (ilog2 q₂) emin = emin := max_eq_right (by omega)
        have hm1 := le_max_right (ilog2 q₁) emin
        omega
      have hm2 : max (ilog2 q₂) emin = ilog2 q₂ := max_eq_left he2
      calc roundFloat prec emin q₁ ≤ pow2 (max (ilog2 q₁) emin + 1) :=
            roundFloat_le_pow2 prec emin q₁ h1
        _ ≤ pow2 (ilog2 q₂) := pow2_le_pow2 (by omega)
        _ ≤ roundFloat prec emin q₂ := pow2_le_roundFloat prec emin q₂ hprec h2 he2

/-- A positive number of the normal range is rounded with a relative error of at most
`2 ^ (-prec)`. -/
theorem roundFloat_err (prec : Nat) (emin : ℤ) (q : ℚ) (hq : 0 < q) (hn : pow2 emin ≤ q) :
    |roundFloat prec emin q - q| ≤ pow2 (-(prec : ℤ)) * q := by
  rw [roundFloat_of_ne_zero prec emin q (ne_of_gt hq)]
  have hQ := quantum_pos prec emin q
  have habs : |q| = q := abs_of_pos hq
  have he : emin ≤ ilog2 q := by
    have hlt : pow2 emin < pow2 (ilog2 q + 1) := lt_of_le_of_lt hn (ilog2_spec q hq).2
    have := pow2_lt_pow2_iff.1 hlt
    omega
  have hsplit : quantum prec emin q = 2 * (pow2 (-(prec : ℤ)) * pow2 (ilog2 q)) := by
    unfold quantum
    rw [habs, max_eq_left he, ← pow2_add, ← pow2_one, ← pow2_add]
    congr 1
    ring
  have herr := roundEven_err (q / quantum prec emin q)
  have hneg : (roundEven (q / quantum prec emin q) : ℚ) * quantum prec emin q - q
      = -((q / quantum prec emin q - (roundEven (q / quantum prec emin q) : ℚ))
        * quantum prec emin q) := by
    field_simp
    ring
  have hmul : |(roundEven (q / quantum prec emin q) : ℚ) * quantum prec emin q - q|
      = |q / quantum prec emin q - (roundEven (q / quantum prec emin q) : ℚ)|
        * quantum prec emin q := by
    rw [hneg, abs_neg, abs_mul, abs_of_pos hQ]
  rw [hmul]
  have h1 : |q / quantum prec emin q - (roundEven (q / quantum prec emin q) : ℚ)|
      * quantum prec emin q ≤ 1 / 2 * quantum prec emin q :=
    mul_le_mul_of_nonneg_right herr hQ.le
  have h2 : 1 / 2 * quantum prec emin q = pow2 (-(prec : ℤ)) * pow2 (ilog2 q) := by
    rw [hsplit]
    ring
  have h3 : pow2 (-(prec : ℤ)) * pow2 (ilog2 q) ≤ pow2 (-(prec : ℤ)) * q :=
    mul_le_mul_of_nonneg_left (ilog2_spec q hq).1 (pow2_pos _).le
  linarith

/-! ## Lemmas on `float64` values -/

namespace Float64

theorem add_def (a b : Float64) : a + b = add a b := rfl

theorem mul_def (a b : Float64) : a * b = mul a b := rfl

theorem div_def (a b : Float64) : a / b = div a b := rfl

theorem le_def (a b : Float64) : a ≤ b ↔ le a b := Iff.rfl

theorem lt_def (a b : Float64) : a < b ↔ lt a b := Iff.rfl

theorem ofNat_def (n : Nat) : (OfNat.ofNat n : Float64) = fin n := rfl

/-- A finite result of an operation is the rounded exact result. -/
theorem eq_roundFloat_of_ofRat_eq_fin {q r : ℚ} (h : ofRat q = fin r) :
    r = roundFloat 53 (-1022) q := by
  unfold ofRat at h
  split at h
  · exact Float64.noConfusion h
  · split at h
    · exact Float64.noConfusion h
    · exact (fin.inj h).symm

theorem ofRat_eq_fin_of_lt {q : ℚ} (h0 : 0 ≤ q) (h : roundFloat 53 (-1022) q < pow2 1024) :
    ofRat q = fin (roundFloat 53 (-1022) q) := by
  have hn := roundFloat_nonneg 53 (-1022) q h0
  have h1 : ¬ pow2 1024 ≤ roundFloat 53 (-1022) q := not_le.2 h
  have h2 : ¬ roundFloat 53 (-1022) q ≤ -pow2 1024 :=
    not_le.2 (lt_of_lt_of_le (neg_neg_of_pos (pow2_pos 1024)) hn)
  simp only [ofRat, if_neg h1, if_neg h2]

theorem ofRat_notNeg {q : ℚ} (h0 : 0 ≤ q) : (ofRat q).NotNeg := by
  have hn := roundFloat_nonneg 53 (-1022) q h0
  have h2 : ¬ roundFloat 53 (-1022) q ≤ -pow2 1024 :=
    not_le.2 (lt_of_lt_of_le (neg_neg_of_pos (pow2_pos 1024)) hn)
  by_cases h1 : pow2 1024 ≤ roundFloat 53 (-1022) q
  · simp only [ofRat, if_pos h1, NotNeg]
  · simp only [ofRat, if_neg h1, if_neg h2, NotNeg]
    exact hn

theorem ofRat_one : ofRat 1 = 1 := by
  decide!

theorem NotNeg.add {a b : Float64} (ha : a.NotNeg) (hb : b.NotNeg) : (a + b).NotNeg := by
  cases a <;> cases b <;> simp only [add_def, Float64.add, NotNeg] at *
  all_goals first | trivial | exact ofRat_notNeg (add_nonneg ha hb)

theorem NotNeg.mul {a b : Float64} (ha : a.NotNeg) (hb : b.NotNeg) : (a * b).NotNeg := by
  cases a <;> cases b <;> simp only [mul_def, Float64.mul, NotNeg] at * <;>
    first
    | trivial
    | exact ofRat_notNeg (mul_nonneg ha hb)
    | (split_ifs <;> first
        | trivial
        | (rename_i h1 h2; exact h1 (le_antisymm (not_lt.1 h2) ha))
        | (rename_i h1 h2; exact h1 (le_antisymm (not_lt.1 h2) hb)))

theorem NotNeg.div {a b : Float64} (ha : a.NotNeg) (hb : b.NotNeg) : (a / b).NotNeg := by
  cases a <;> cases b <;> simp only [div_def, Float64.div, NotNeg] at * <;>
    first
    | trivial
    | exact le_refl 0
    | (split_ifs <;> first
        | trivial
        | exact ofRat_notNeg (div_nonneg ha hb)
        | exact absurd hb ‹_›
        | (rename_i h1 h2; exact h1 (le_antisymm (not_lt.1 h2) ha)))

end Float64

/-! ## Lemmas on `float64` arithmetic with non-negative operands -/

namespace Float64

theorem roundFloat_one : roundFloat 53 (-1022) 1 = 1 := by
  decide!

theorem one_le_roundFloat {q : ℚ} (h : 1 ≤ q) : 1 ≤ roundFloat 53 (-1022) q := by
  have hm := roundFloat_mono 53 (-1022) (by norm_num) 1 q (by norm_num) h
  rw [roundFloat_one] at hm
  exact hm

/-- A finite product has finite factors. -/
theorem mul_eq_fin {a b : Float64} {x : ℚ} (h : a * b = fin x) :
    ∃ r₁ r₂, a = fin r₁ ∧ b = fin r₂ ∧ ofRat (r₁ * r₂) = fin x := by
  cases a <;> cases b <;> simp only [mul_def, Float64.mul] at h
  case fin.fin r₁ r₂ => exact ⟨r₁, r₂, rfl, rfl, h⟩
  all_goals first
    | exact Float64.noConfusion h
    | split_ifs at h

/-- A quotient of finite values with a non-zero divisor is the rounded exact quotient. -/
theorem fin_div_fin {a b : ℚ} (hb : b ≠ 0) : fin a / fin b = ofRat (a / b) := by
  simp only [div_def, Float64.div, if_neg hb]

end Float64
/-! ## Lemmas on the table decoder -/

/-- The running maximum of the market caps of `l`, started at `a`. -/
theorem foldl_max_init_le (l : List Stock) (a : ℚ) :
    a ≤ l.foldl (fun b s => max b s.MarketCap) a := by
  induction l generalizing a with
  | nil => simp
  | cons hd tl ih =>
    rw [List.foldl_cons]
    exact le_trans (le_max_left a hd.MarketCap) (ih _)

theorem foldl_max_mem_le (l : List Stock) (a : ℚ) (s : Stock) (hs : s ∈ l) :
    s.MarketCap ≤ l.foldl (fun b s => max b s.MarketCap) a := by
  induction l generalizing a with
  | nil => simp at hs
  | cons hd tl ih =>
    rw [List.foldl_cons]
    rcases List.mem_cons.1 hs with h | h
    · subst h
      exact le_trans (le_max_right a s.MarketCap) (foldl_max_init_le tl _)
    · exact ih _ h

theorem foldl_max_attained (l : List Stock) (a : ℚ) :
    l.foldl (fun b s => max b s.MarketCap) a = a ∨
      ∃ s ∈ l, s.MarketCap = l.foldl (fun b s => max b s.MarketCap) a := by
  induction l generalizing a with
  | nil => simp
  | cons hd tl ih =>
    rw [List.foldl_cons]
    rcases ih (max a hd.MarketCap) with h | ⟨s, hs, hsv⟩
    · rcases max_choice a hd.MarketCap with hm | hm
      · left
        rw [h, hm]
      · right
        exact ⟨hd, List.mem_cons_self _ _, by rw [h, hm]⟩
    · right
      exact ⟨s, List.mem_cons_of_mem _ hs, hsv⟩

/-- A successful run of the row loop only appends to `stocks`, and `largest` ends as the
running maximum of its start value and the market caps of the appended equities. -/
theorem readRows_ok (c : Columns) (reader : Reader) (stocks0 : List Stock) (largest0 : ℚ)
    (stocks : List Stock) (largest : ℚ)
    (h : readRows c reader stocks0 largest0 = .ok stocks largest) :
    ∃ new, stocks = stocks0 ++ new ∧
      largest = new.foldl (fun b s => max b s.MarketCap) largest0 := by
  induction reader generalizing stocks0 largest0 with
  | nil =>
    simp only [readRows, Result.ok.injEq] at h
    exact ⟨[], by simp [h.1], by simp [h.2]⟩
  | cons hd tl ih =>
    cases hd with
    | failure msg => simp [readRows] at h
    | record record =>
      simp only [readRows] at h
      split at h
      · simp at h
      · split at h
        · simp at h
        · split at h
          · simp at h
          · split at h
            · simp at h
            · split at h
              · obtain ⟨new, h1, h2⟩ := ih _ _ h
                exact ⟨_ :: new, by simpa using h1, by simpa using h2⟩
              · simp at h

/-- A successful call of `readCSV` returns as `largest` the running maximum, started at
`0`, of the market caps of the returned equities. -/
theorem readCSV_ok_largest (reader : Reader) (stocks : List Stock) (largest : ℚ)
    (h : readCSV reader = .ok stocks largest) :
    largest = stocks.foldl (fun b s => max b s.MarketCap) 0 := by
  unfold readCSV at h
  split at h
  · simp at h
  · simp at h
  · obtain ⟨new, h1, h2⟩ := readRows_ok _ _ _ _ _ _ h
    simp only [List.nil_append] at h1
    rw [h1, h2]

/-! ## Lemmas on column resolution -/

/-- Resolution of one role by the header loop.  `proj` reads the index of the role and
`name` is its label: a label present in the header is resolved to a position holding it,
a label absent from the header leaves the index as it was. -/
theorem scanHeader_role (proj : Columns → Nat) (name : String)
    (H : ∀ c i v, proj (headerStep c i v) = if v = name then i else proj c)
    (l : List String) (i : Nat) (c : Columns) :
    (name ∈ l → ∃ j, l[j]? = some name ∧ proj (scanHeader l i c) = i + j) ∧
      (name ∉ l → proj (scanHeader l i c) = proj c) := by
  induction l generalizing i c with
  | nil => simp [scanHeader]
  | cons v rest ih =>
    obtain ⟨ih1, ih2⟩ := ih (i + 1) (headerStep c i v)
    simp only [scanHeader]
    by_cases hr : name ∈ rest
    · refine ⟨fun _ => ?_, fun hn => absurd (List.mem_cons_of_mem _ hr) hn⟩
      obtain ⟨j, hj, hp⟩ := ih1 hr
      exact ⟨j + 1, by simpa using hj, by rw [hp]; ring⟩
    · rw [ih2 hr, H]
      constructor
      · intro hm
        have hv : v = name := by
          rcases List.mem_cons.1 hm with h | h
          · exact h.symm
          · exact absurd h hr
        exact ⟨0, by simp [hv], by simp [hv]⟩
      · intro hn
        have hv : ¬ v = name := fun e => hn (e ▸ List.mem_cons_self _ _)
        simp [hv]

theorem headerStep_symMap (c : Columns) (i : Nat) (v : String) :
    (headerStep c i v).symMap = if v = "Symbol" then i else c.symMap := by
  unfold headerStep
  split_ifs <;> simp_all

theorem headerStep_nameMap (c : Columns) (i : Nat) (v : String) :
    (headerStep c i v).nameMap = if v = "Name" then i else c.nameMap := by
  unfold headerStep
  split_ifs <;> simp_all

theorem headerStep_sectMap (c : Columns) (i : Nat) (v : String) :
    (headerStep c i v).sectMap = if v = "Sector" then i else c.sectMap := by
  unfold headerStep
  split_ifs <;> simp_all

theorem headerStep_pMap (c : Columns) (i : Nat) (v : String) :
    (headerStep c i v).pMap = if v = "Price" then i else c.pMap := by
  unfold headerStep
  split_ifs <;> simp_all

theorem headerStep_capMap (c : Columns) (i : Nat) (v : String) :
    (headerStep c i v).capMap = if v = "Market Cap" then i else c.capMap := by
  unfold headerStep
  split_ifs <;> simp_all

/-- A role whose label occurs in the header is resolved to a position holding the label. -/
theorem fieldIndexes_role (proj : Columns → Nat) (name : String)
    (H : ∀ c i v, proj (headerStep c i v) = if v = name then i else proj c)
    (first : List String) (h : name ∈ first) :
    first[proj (fieldIndexes first)]? = some name := by
  obtain ⟨j, hj, hp⟩ := (scanHeader_role proj name H first 0 ⟨0, 0, 0, 0, 0⟩).1 h
  unfold fieldIndexes
  rw [hp, Nat.zero_add]
  exact hj

theorem lt_length_of_getElem? {α : Type} {l : List α} {i : Nat} {a : α}
    (h : l[i]? = some a) : i < l.length := by
  by_contra hc
  rw [List.getElem?_eq_none (Nat.le_of_not_lt hc)] at h
  exact Option.noConfusion h

theorem exists_getElem?_of_lt {α : Type} {l : List α} {i : Nat} (h : i < l.length) :
    ∃ a, l[i]? = some a :=
  ⟨l[i], List.getElem?_eq_getElem h⟩

/-- Index form of a pointwise relation between two lists. -/
theorem forall₂_getElem? {α β : Type} {R : α → β → Prop} {l₁ : List α} {l₂ : List β}
    (h : List.Forall₂ R l₁ l₂) (i : Nat) (a : α) (ha : l₁[i]? = some a) :
    ∃ b, l₂[i]? = some b ∧ R a b := by
  induction h generalizing i with
  | nil => simp at ha
  | cons hab _ ih =>
    cases i with
    | zero =>
      simp only [List.getElem?_cons_zero, Option.some.injEq] at ha
      exact ⟨_, by simp, ha ▸ hab⟩
    | succ i =>
      simp only [List.getElem?_cons_succ] at ha
      simpa using ih i ha

/-- The row loop succeeds on records that can all be decoded, and decodes them in order. -/
theorem readRows_decodes (c : Columns) (rows : List (List String))
    (h : ∀ r ∈ rows, ∃ s, DecodesTo c r s) (stocks0 : List Stock) (largest0 : ℚ) :
    ∃ new largest, readRows c (rows.map .record) stocks0 largest0 = .ok (stocks0 ++ new) largest ∧
      List.Forall₂ (DecodesTo c) rows new := by
  induction rows generalizing stocks0 largest0 with
  | nil => exact ⟨[], largest0, by simp [readRows], List.Forall₂.nil⟩
  | cons r rest ih =>
    obtain ⟨s, hs⟩ := h r (List.mem_cons_self _ _)
    obtain ⟨hsym, hname, hsect, ⟨pf, hpf, hpv⟩, ⟨cf, hcf, hcv⟩⟩ := hs
    obtain ⟨new, largest, hrun, hall⟩ :=
      ih (fun r' hr' => h r' (List.mem_cons_of_mem _ hr')) (stocks0 ++ [s]) (max largest0 s.MarketCap)
    refine ⟨s :: new, largest, ?_, List.Forall₂.cons ⟨hsym, hname, hsect, ⟨pf, hpf, hpv⟩, ⟨cf, hcf, hcv⟩⟩ hall⟩
    simp only [List.map_cons, readRows, hpf, hpv, hcf, hcv, hsym, hname, hsect]
    simpa using hrun

/-! ## Lemmas on permuted columns -/

theorem getElem?_ofFn_some {α : Type} {n : Nat} (f : Fin n → α) (i : Nat) (a : α)
    (h : (List.ofFn f)[i]? = some a) : ∃ hi : i < n, f ⟨i, hi⟩ = a := by
  rw [List.getElem?_ofFn, List.ofFnNthVal] at h
  split at h
  · rename_i hi
    exact ⟨hi, Option.some.inj h⟩
  · exact Option.noConfusion h

theorem getElem?_ofFn_lt {α : Type} {n : Nat} (f : Fin n → α) (i : Nat) (hi : i < n) :
    (List.ofFn f)[i]? = some (f ⟨i, hi⟩) := by
  rw [List.getElem?_ofFn, List.ofFnNthVal, dif_pos hi]

theorem ofFn_five {α : Type} (r : Fin 5 → α) : List.ofFn r = [r 0, r 1, r 2, r 3, r 4] := by
  simp only [List.ofFn_succ, List.ofFn_zero]
  rfl

theorem columnNames_injective : Function.Injective columnNames := by
  decide

/-- With the header permuted by `p`, the index resolved for the role named
`columnNames k` selects, in a row permuted by `p`, the field `k` of the row. -/
theorem permuted_field (proj : Columns → Nat) (k : Fin 5)
    (H : ∀ c i v, proj (headerStep c i v) = if v = columnNames k then i else proj c)
    (p : Equiv.Perm (Fin 5)) (r : Fin 5 → String) :
    (permuteFields p r)[proj (fieldIndexes (permuteFields p columnNames))]? = some (r k) := by
  have hmem : columnNames k ∈ permuteFields p columnNames := by
    unfold permuteFields
    rw [List.mem_ofFn]
    exact ⟨p.symm k, by simp⟩
  have hres := fieldIndexes_role proj (columnNames k) H (permuteFields p columnNames) hmem
  unfold permuteFields at hres ⊢
  obtain ⟨hi, hv⟩ := getElem?_ofFn_some _ _ _ hres
  rw [getElem?_ofFn_lt _ _ hi, columnNames_injective hv]

/-- The row loop on rows permuted by `p`, with the indexes resolved from the header
permuted by `p`, runs like the loop that reads the fields `3, 4, 0, 1, 2` of the rows. -/
theorem readRows_permuted (p : Equiv.Perm (Fin 5)) (rows : List (Fin 5 → String))
    (stocks : List Stock) (largest : ℚ) :
    readRows (fieldIndexes (permuteFields p columnNames))
        (rows.map (fun r => .record (permuteFields p r))) stocks largest =
      readRows ⟨0, 1, 2, 3, 4⟩ (rows.map (fun r => .record (List.ofFn r))) stocks largest := by
  induction rows generalizing stocks largest with
  | nil => rfl
  | cons r rest ih =>
    have h0 := permuted_field Columns.symMap 0 headerStep_symMap p r
    have h1 := permuted_field Columns.nameMap 1 headerStep_nameMap p r
    have h2 := permuted_field Columns.sectMap 2 headerStep_sectMap p r
    have h3 := permuted_field Columns.pMap 3 headerStep_pMap p r
    have h4 := permuted_field Columns.capMap 4 headerStep_capMap p r
    have g0 : (List.ofFn r)[0]? = some (r 0) := getElem?_ofFn_lt r 0 (by decide)
    have g1 : (List.ofFn r)[1]? = some (r 1) := getElem?_ofFn_lt r 1 (by decide)
    have g2 : (List.ofFn r)[2]? = some (r 2) := getElem?_ofFn_lt r 2 (by decide)
    have g3 : (List.ofFn r)[3]? = some (r 3) := getElem?_ofFn_lt r 3 (by decide)
    have g4 : (List.ofFn r)[4]? = some (r 4) := getElem?_ofFn_lt r 4 (by decide)
    simp only [List.map_cons, readRows, h0, h1, h2, h3, h4, g0, g1, g2, g3, g4]
    cases ParseFloat (r 3) 32 with
    | error e => rfl
    | ok price =>
      cases ParseFloat (r 4) 64 with
      | error e => rfl
      | ok mktCap => exact ih _ _

/-- Reading a table whose columns are permuted by `p` gives the result of the row loop
that reads the fields `0, 1, 2, 3, 4` of the unpermuted rows. -/
theorem readCSV_permutedReader (p : Equiv.Perm (Fin 5)) (rows : List (Fin 5 → String)) :
    readCSV (permutedReader p columnNames rows) =
      readRows ⟨0, 1, 2, 3, 4⟩ (rows.map (fun r => .record (List.ofFn r))) [] 0 := by
  unfold permutedReader
  simp only [readCSV]
  exact readRows_permuted p rows [] 0

/-! ## Lemmas on the outcome of the table decoder -/

/-- A role whose label is absent from the header keeps the start index `0`. -/
theorem fieldIndexes_absent (proj : Columns → Nat) (name : String)
    (H : ∀ c i v, proj (headerStep c i v) = if v = name then i else proj c)
    (h0 : proj ⟨0, 0, 0, 0, 0⟩ = 0) (first : List String) (h : name ∉ first) :
    proj (fieldIndexes first) = 0 := by
  unfold fieldIndexes
  rw [(scanHeader_role proj name H first 0 ⟨0, 0, 0, 0, 0⟩).2 h, h0]

/-- Every resolved index is a position of the header, when the header has a field. -/
theorem fieldIndexes_lt (proj : Columns → Nat) (name : String)
    (H : ∀ c i v, proj (headerStep c i v) = if v = name then i else proj c)
    (h0 : proj ⟨0, 0, 0, 0, 0⟩ = 0) (first : List String) (hne : first ≠ []) :
    proj (fieldIndexes first) < first.length := by
  by_cases h : name ∈ first
  · exact lt_length_of_getElem? (fieldIndexes_role proj name H first h)
  · rw [fieldIndexes_absent proj name H h0 first h]
    exact List.length_pos.2 hne

/-- A successful run of the row loop has read records only, and has decoded each of them
into the equity appended at its position. -/
theorem readRows_ok_forall₂ (c : Columns) (reader : Reader) (stocks0 : List Stock)
    (largest0 : ℚ) (stocks : List Stock) (largest : ℚ)
    (h : readRows c reader stocks0 largest0 = .ok stocks largest) :
    ∃ rows new, reader = rows.map .record ∧ stocks = stocks0 ++ new ∧
      List.Forall₂ (DecodesTo c) rows new := by
  induction reader generalizing stocks0 largest0 with
  | nil =>
    simp only [readRows, Result.ok.injEq] at h
    exact ⟨[], [], rfl, by simp [h.1], List.Forall₂.nil⟩
  | cons hd tl ih =>
    cases hd with
    | failure msg => simp [readRows] at h
    | record record =>
      cases h1 : record[c.pMap]? with
      | none => simp [readRows, h1] at h
      | some pf =>
        cases h2 : ParseFloat pf 32 with
        | error e => simp [readRows, h1, h2] at h
        | ok price =>
          cases h3 : record[c.capMap]? with
          | none => simp [readRows, h1, h2, h3] at h
          | some cf =>
            cases h4 : ParseFloat cf 64 with
            | error e => simp [readRows, h1, h2, h3, h4] at h
            | ok mktCap =>
              cases h5 : record[c.symMap]? with
              | none => simp [readRows, h1, h2, h3, h4, h5] at h
              | some sym =>
                cases h6 : record[c.nameMap]? with
                | none => simp [readRows, h1, h2, h3, h4, h5, h6] at h
                | some name =>
                  cases h7 : record[c.sectMap]? with
                  | none => simp [readRows, h1, h2, h3, h4, h5, h6, h7] at h
                  | some sect =>
                    simp only [readRows, h1, h2, h3, h4, h5, h6, h7] at h
                    obtain ⟨rows, new, hr, hs, hall⟩ := ih _ _ h
                    refine ⟨record :: rows, ⟨sym, name, sect, price, mktCap⟩ :: new, ?_, ?_, ?_⟩
                    · simp [hr]
                    · simp [hs]
                    · exact List.Forall₂.cons ⟨h5, h6, h7, ⟨pf, h1, h2⟩, ⟨cf, h3, h4⟩⟩ hall

/-- When every record is long enough for the five indexes, the row loop does not panic:
it returns normally, returns a reader error, or ends in `log.Fatal`. -/
theorem readRows_outcome (c : Columns) (reader : Reader)
    (hin : ∀ r, ReadResult.record r ∈ reader →
      c.symMap < r.length ∧ c.nameMap < r.length ∧ c.sectMap < r.length ∧
        c.pMap < r.length ∧ c.capMap < r.length)
    (stocks0 : List Stock) (largest0 : ℚ) :
    (∃ stocks largest, readRows c reader stocks0 largest0 = .ok stocks largest) ∨
      (∃ e, readRows c reader stocks0 largest0 = .err e) ∨
      (∃ e, readRows c reader stocks0 largest0 = .fatal e) := by
  induction reader generalizing stocks0 largest0 with
  | nil => exact Or.inl ⟨stocks0, largest0, rfl⟩
  | cons hd tl ih =>
    cases hd with
    | failure msg => exact Or.inr (Or.inl ⟨.csv msg, rfl⟩)
    | record record =>
      obtain ⟨i5, i6, i7, i1, i3⟩ := hin record (List.mem_cons_self _ _)
      obtain ⟨pf, h1⟩ := exists_getElem?_of_lt i1
      obtain ⟨cf, h3⟩ := exists_getElem?_of_lt i3
      obtain ⟨sym, h5⟩ := exists_getElem?_of_lt i5
      obtain ⟨name, h6⟩ := exists_getElem?_of_lt i6
      obtain ⟨sect, h7⟩ := exists_getElem?_of_lt i7
      have ih' := ih (fun r hr => hin r (List.mem_cons_of_mem _ hr))
      cases h2 : ParseFloat pf 32 with
      | error e => exact Or.inr (Or.inr ⟨e, by simp [readRows, h1, h2]⟩)
      | ok price =>
        cases h4 : ParseFloat cf 64 with
        | error e => exact Or.inr (Or.inr ⟨e, by simp [readRows, h1, h2, h3, h4]⟩)
        | ok mktCap =>
          simp only [readRows, h1, h2, h3, h4, h5, h6, h7]
          exact ih' _ _

/-- A reader all of whose results are records with a property is a list of such records. -/
theorem records_of_forall (P : List String → Prop) (reader : Reader)
    (h : ∀ x ∈ reader, ∃ r, x = ReadResult.record r ∧ P r) :
    ∃ rows : List (List String), reader = rows.map .record ∧ ∀ r ∈ rows, P r := by
  induction reader with
  | nil => exact ⟨[], rfl, by simp⟩
  | cons hd tl ih =>
    obtain ⟨r, hr, hP⟩ := h hd (List.mem_cons_self _ _)
    obtain ⟨rows, hrows, hall⟩ := ih (fun x hx => h x (List.mem_cons_of_mem _ hx))
    refine ⟨r :: rows, by simp [hr, hrows], ?_⟩
    intro r' hr'
    rcases List.mem_cons.1 hr' with e | e
    · exact e ▸ hP
    · exact hall r' e

theorem exists_mem_of_forall₂_left {α β : Type} {R : α → β → Prop} {l₁ : List α} {l₂ : List β}
    (h : List.Forall₂ R l₁ l₂) (a : α) (ha : a ∈ l₁) : ∃ b ∈ l₂, R a b := by
  induction h with
  | nil => simp at ha
  | cons hab _ ih =>
    rcases List.mem_cons.1 ha with e | e
    · exact ⟨_, List.mem_cons_self _ _, e ▸ hab⟩
    · obtain ⟨b, hb, hR⟩ := ih e
      exact ⟨b, List.mem_cons_of_mem _ hb, hR⟩

/-- With a non-empty header, every record that has the header's field count is long enough
for the five resolved indexes. -/
theorem fieldIndexes_in_range (header : List String) (hhdr : header ≠ []) (r : List String)
    (hlen : r.length = header.length) :
    (fieldIndexes header).symMap < r.length ∧ (fieldIndexes header).nameMap < r.length ∧
      (fieldIndexes header).sectMap < r.length ∧ (fieldIndexes header).pMap < r.length ∧
      (fieldIndexes header).capMap < r.length := by
  rw [hlen]
  exact ⟨fieldIndexes_lt Columns.symMap "Symbol" headerStep_symMap rfl header hhdr,
    fieldIndexes_lt Columns.nameMap "Name" headerStep_nameMap rfl header hhdr,
    fieldIndexes_lt Columns.sectMap "Sector" headerStep_sectMap rfl header hhdr,
    fieldIndexes_lt Columns.pMap "Price" headerStep_pMap rfl header hhdr,
    fieldIndexes_lt Columns.capMap "Market Cap" headerStep_capMap rfl header hhdr⟩

/-- A record of the header's field count whose Price and Market Cap fields parse can be
decoded. -/
theorem decodesTo_of_parse (header : List String) (r : List String)
    (hlen : r.length = header.length)
    (hp : ∃ f v, r[(fieldIndexes header).pMap]? = some f ∧ ParseFloat f 32 = .ok v)
    (hc : ∃ f v, r[(fieldIndexes header).capMap]? = some f ∧ ParseFloat f 64 = .ok v) :
    ∃ s, DecodesTo (fieldIndexes header) r s := by
  obtain ⟨pf, pv, hpf, hpv⟩ := hp
  obtain ⟨cf, cv, hcf, hcv⟩ := hc
  have hhdr : header ≠ [] := by
    intro e
    have h1 := lt_length_of_getElem? hpf
    rw [hlen, e] at h1
    exact Nat.not_lt_zero _ h1
  obtain ⟨i5, i6, i7, _, _⟩ := fieldIndexes_in_range header hhdr r hlen
  obtain ⟨sym, h5⟩ := exists_getElem?_of_lt i5
  obtain ⟨name, h6⟩ := exists_getElem?_of_lt i6
  obtain ⟨sect, h7⟩ := exists_getElem?_of_lt i7
  exact ⟨⟨sym, name, sect, pv, cv⟩, h5, h6, h7, ⟨pf, hpf, hpv⟩, ⟨cf, hcf, hcv⟩⟩

/-! ## Lemmas on the calculators -/

theorem get?_computeRelative (data : List Stock) (largest : ℚ) (e : Stock) :
    (computeRelative data largest).get? e =
      if e ∈ data then some (Float64.fin largest / Float64.fin e.MarketCap) else none := by
  unfold computeRelative
  rw [get?_foldl_set_keys (fun s : Stock => Float64.fin largest / Float64.fin s.MarketCap)
    data GoMap.make e]
  rfl

theorem get?_shares (portfolio minBudget : Float64) (weights : GoMap Stock Float64)
    (e : Stock) :
    (shares portfolio minBudget weights).get? e =
      (weights.get? e).map
        (fun w => toInt (Float64.Round (w * (portfolio / minBudget)))) := by
  unfold shares
  have h := get?_foldl_set
    (fun (_ : Stock) (w : Float64) => toInt (Float64.Round (w * (portfolio / minBudget))))
    weights.entries weights.nodupKeys GoMap.make e
  simp only [] at h ⊢
  rw [h]
  unfold GoMap.get?
  cases lookupList e weights.entries <;> rfl

/-- The accumulation loop of `minBudget` adds up, from `0` and in the order of the
entries, the products `Price * weight`. -/
theorem minBudget_eq_foldl (weights : GoMap Stock Float64) :
    minBudget weights =
      (weights.entries.map (fun sw => Float64.fin sw.1.Price * sw.2)).foldl (· + ·) 0 := by
  unfold minBudget
  rw [List.foldl_map]

theorem mem_keys_iff {κ ν : Type} [DecidableEq κ] (m : GoMap κ ν) (k : κ) :
    k ∈ m.keys ↔ m.get? k ≠ none := by
  unfold GoMap.keys GoMap.get?
  rw [Ne, lookupList_eq_none_iff, not_not]

/-- The keys of the weight table are the equities of the input. -/
theorem mem_keys_computeRelative (data : List Stock) (largest : ℚ) (e : Stock) :
    e ∈ (computeRelative data largest).keys ↔ e ∈ data := by
  rw [mem_keys_iff, get?_computeRelative]
  by_cases h : e ∈ data <;> simp [h]

theorem keys_toFinset_computeRelative (data : List Stock) (largest : ℚ) :
    (computeRelative data largest).keys.toFinset = data.toFinset := by
  ext e
  rw [List.mem_toFinset, List.mem_toFinset, mem_keys_computeRelative]

theorem len_computeRelative (data : List Stock) (largest : ℚ) :
    (computeRelative data largest).len = data.toFinset.card := by
  rw [← keys_toFinset_computeRelative data largest]
  unfold GoMap.keys GoMap.len
  rw [List.toFinset_card_of_nodup (computeRelative data largest).nodupKeys, List.length_map]

/-- An equity bound in the weight table is an equity of the input. -/
theorem mem_of_get?_computeRelative_ne_none (data : List Stock) (largest : ℚ) (e : Stock)
    (h : (computeRelative data largest).get? e ≠ none) : e ∈ data :=
  (mem_keys_computeRelative data largest e).1 ((mem_keys_iff _ e).2 h)

/-- An entry of the weight table is an equity of the input with its relative weight. -/
theorem mem_entries_computeRelative_iff (data : List Stock) (largest : ℚ)
    (sw : Stock × Float64) :
    sw ∈ (computeRelative data largest).entries ↔
      sw.1 ∈ data ∧ sw.2 = Float64.fin largest / Float64.fin sw.1.MarketCap := by
  obtain ⟨s, w⟩ := sw
  rw [← lookupList_eq_some_iff s w _ (computeRelative data largest).nodupKeys]
  have h := get?_computeRelative data largest s
  unfold GoMap.get? at h
  rw [h]
  by_cases hs : s ∈ data
  · simp only [hs, if_true, Option.some.injEq, true_and]
    exact eq_comm
  · simp [hs]

/-- The entries of the weight table are its keys, each with its relative weight. -/
theorem entries_computeRelative (data : List Stock) (largest : ℚ) :
    (computeRelative data largest).entries =
      (computeRelative data largest).keys.map
        (fun e => (e, Float64.fin largest / Float64.fin e.MarketCap)) := by
  unfold GoMap.keys
  rw [List.map_map]
  conv_lhs => rw [← List.map_id (computeRelative data largest).entries]
  apply List.map_congr_left
  intro sw hsw
  have h := ((mem_entries_computeRelative_iff data largest sw).1 hsw).2
  simp only [id, Function.comp]
  rw [← h]

/-- A value `int(math.Round(x))` of a finite `x` whose rounded value fits in `int`. -/
theorem toInt_Round_fin (x : ℚ) (h : fitsInt (truncToInt (Round x))) :
    toInt (Float64.Round (Float64.fin x)) = truncToInt (Round x) := by
  simp only [Float64.Round, toInt, if_pos h]

/-- The budget is not negative when prices are non-negative and no weight is negative. -/
theorem minBudget_notNeg (weights : GoMap Stock Float64)
    (h : ∀ sw ∈ weights.entries, 0 ≤ sw.1.Price ∧ sw.2.NotNeg) :
    (minBudget weights).NotNeg := by
  unfold minBudget
  have hgen : ∀ (l : List (Stock × Float64)) (acc : Float64), acc.NotNeg →
      (∀ sw ∈ l, 0 ≤ sw.1.Price ∧ sw.2.NotNeg) →
      (l.foldl (fun cost sw => cost + Float64.fin sw.1.Price * sw.2) acc).NotNeg := by
    intro l
    induction l with
    | nil => intro acc hacc _; exact hacc
    | cons hd tl ih =>
      intro acc hacc hl
      rw [List.foldl_cons]
      have hhd := hl hd (List.mem_cons_self _ _)
      have hp : (Float64.fin hd.1.Price).NotNeg := hhd.1
      exact ih _ (Float64.NotNeg.add hacc (Float64.NotNeg.mul hp hhd.2))
        (fun sw hsw => hl sw (List.mem_cons_of_mem _ hsw))
  exact hgen weights.entries 0 (by simp [Float64.ofNat_def, Float64.NotNeg]) h

/-- No weight of the table is negative when `largest` and the market caps are not. -/
theorem computeRelative_notNeg (data : List Stock) (largest : ℚ) (hl : 0 ≤ largest)
    (hcap : ∀ s ∈ data, 0 ≤ s.MarketCap) (sw : Stock × Float64)
    (hsw : sw ∈ (computeRelative data largest).entries) : sw.2.NotNeg := by
  obtain ⟨hmem, hw⟩ := (mem_entries_computeRelative_iff data largest sw).1 hsw
  rw [hw]
  have h1 : (Float64.fin largest).NotNeg := hl
  have h2 : (Float64.fin sw.1.MarketCap).NotNeg := hcap _ hmem
  exact Float64.NotNeg.div h1 h2

/-! ### Error analysis of a few roundings of a number close to an integer -/

theorem pow2_neg1022_le_half : pow2 (-1022) ≤ 1 / 2 := by
  have h := pow2_le_pow2 (show (-1022 : ℤ) ≤ -1 by norm_num)
  have h1 : pow2 (-1) = 1 / 2 := by
    rw [pow2_eq_zpow]
    norm_num
  exact le_of_le_of_eq h h1

theorem two_pow_52_lt_pow2_1024 : (2 : ℚ) ^ 52 < pow2 1024 := by
  have h := pow2_lt_pow2_iff.2 (show (52 : ℤ) < 1024 by norm_num)
  have h1 : pow2 52 = 2 ^ 52 := by
    rw [pow2_eq_zpow]
    norm_num
  exact lt_of_eq_of_lt h1.symm h

/-- Relative error of one `float64` rounding in the normal range. -/
theorem roundFloat53_err (q : ℚ) (hq : 0 < q) (hn : pow2 (-1022) ≤ q) :
    |roundFloat 53 (-1022) q - q| ≤ q / 2 ^ 53 := by
  have h := roundFloat_err 53 (-1022) q hq hn
  have hu : pow2 (-((53 : ℕ) : ℤ)) = 1 / 2 ^ 53 := by
    rw [pow2_eq_zpow]
    norm_num
  rw [hu] at h
  rw [div_eq_mul_inv, mul_comm, ← one_div]
  exact h

/-- One more rounding of a number within `t` units of relative error of `K ≥ 1` stays within
`t + 9/8` units. -/
theorem roundFloat53_step (q K t : ℚ) (hK1 : 1 ≤ K) (ht0 : 0 ≤ t) (ht : t ≤ 3)
    (h : |q - K| ≤ t * (K / 2 ^ 53)) :
    |roundFloat 53 (-1022) q - K| ≤ (t + 9 / 8) * (K / 2 ^ 53) := by
  have hd0 : 0 ≤ K / 2 ^ 53 := by positivity
  have hdK : K / 2 ^ 53 * 2 ^ 53 = K := by
    field_simp
  have htd : t * (K / 2 ^ 53) ≤ 3 * (K / 2 ^ 53) := mul_le_mul_of_nonneg_right ht hd0
  have htd0 : 0 ≤ t * (K / 2 ^ 53) := mul_nonneg ht0 hd0
  have h1 := abs_le.1 h
  have h53 : (8 : ℚ) ≤ 2 ^ 53 := by norm_num
  have hd8 : 8 * (K / 2 ^ 53) ≤ K := by
    calc 8 * (K / 2 ^ 53) ≤ 2 ^ 53 * (K / 2 ^ 53) := mul_le_mul_of_nonneg_right h53 hd0
      _ = K := by rw [mul_comm]; exact hdK
  have hqhalf : 1 / 2 ≤ q := by linarith [h1.1]
  have hq0 : 0 < q := by linarith
  have hqn : pow2 (-1022) ≤ q := le_trans pow2_neg1022_le_half hqhalf
  have e := abs_le.1 (roundFloat53_err q hq0 hqn)
  have hr0 : 0 ≤ q / 2 ^ 53 := by positivity
  have hrq : q / 2 ^ 53 * 2 ^ 53 = q := by
    field_simp
  have hqK : q ≤ 11 / 8 * K := by linarith [h1.2]
  have hr : q / 2 ^ 53 ≤ 9 / 8 * (K / 2 ^ 53) := by
    have hle : q / 2 ^ 53 ≤ (K + 3 * (K / 2 ^ 53)) / 2 ^ 53 :=
      div_le_div_of_nonneg_right (by linarith [h1.2]) (by positivity)
    have h3 : 3 * (K / 2 ^ 53) / 2 ^ 53 ≤ 1 / 8 * (K / 2 ^ 53) := by
      rw [div_le_iff₀ (by positivity)]
      have : (3 : ℚ) ≤ 1 / 8 * 2 ^ 53 := by norm_num
      nlinarith [mul_le_mul_of_nonneg_right this hd0]
    rw [add_div] at hle
    linarith
  rw [abs_le]
  constructor <;> linarith [e.1, e.2, h1.1, h1.2]

/-- A number within `1/2` of some `K ≤ 2^50` is a finite `float64`. -/
theorem lt_pow2_1024_of_near (x K : ℚ) (hK50 : K ≤ 2 ^ 50) (h : |x - K| ≤ 1 / 2) :
    x < pow2 1024 := by
  have h2 := (abs_le.1 h).2
  have h52 : (2 : ℚ) ^ 50 ≤ 2 ^ 52 - 1 := by norm_num
  exact lt_of_le_of_lt (by linarith) two_pow_52_lt_pow2_1024

/-- At most four units of relative error of `K ≤ 2^50` are less than `1/2`. -/
theorem units_lt_half (K t : ℚ) (hK0 : 0 ≤ K) (hK50 : K ≤ 2 ^ 50)
    (ht : t ≤ 27 / 8) : t * (K / 2 ^ 53) < 1 / 2 := by
  have hd0 : 0 ≤ K / 2 ^ 53 := by positivity
  have hd : K / 2 ^ 53 ≤ 1 / 8 := by
    rw [div_le_iff₀ (by positivity)]
    have : (1 : ℚ) / 8 * 2 ^ 53 = 2 ^ 50 := by norm_num
    rw [this]
    exact hK50
  have h1 : t * (K / 2 ^ 53) ≤ 27 / 8 * (K / 2 ^ 53) := mul_le_mul_of_nonneg_right ht hd0
  linarith

/-! ### Rounding error of sums of `float64` numbers -/

/-- A number of the normal range is rounded with a relative error of at most
`2 ^ (-prec)`, whatever its sign. -/
theorem roundFloat_err_abs (prec : Nat) (emin : ℤ) (q : ℚ) (hq : q ≠ 0)
    (hn : pow2 emin ≤ |q|) :
    |roundFloat prec emin q - q| ≤ pow2 (-(prec : ℤ)) * |q| := by
  rw [roundFloat_of_ne_zero prec emin q hq]
  have hQ := quantum_pos prec emin q
  have hpos : 0 < |q| := abs_pos.2 hq
  have he : emin ≤ ilog2 |q| := by
    have hlt : pow2 emin < pow2 (ilog2 |q| + 1) := lt_of_le_of_lt hn (ilog2_spec |q| hpos).2
    have := pow2_lt_pow2_iff.1 hlt
    omega
  have hsplit : quantum prec emin q = 2 * (pow2 (-(prec : ℤ)) * pow2 (ilog2 |q|)) := by
    unfold quantum
    rw [max_eq_left he, ← pow2_add, ← pow2_one, ← pow2_add]
    congr 1
    ring
  have herr := roundEven_err (q / quantum prec emin q)
  have hneg : (roundEven (q / quantum prec emin q) : ℚ) * quantum prec emin q - q
      = -((q / quantum prec emin q - (roundEven (q / quantum prec emin q) : ℚ))
        * quantum prec emin q) := by
    field_simp
    ring
  have hmul : |(roundEven (q / quantum prec emin q) : ℚ) * quantum prec emin q - q|
      = |q / quantum prec emin q - (roundEven (q / quantum prec emin q) : ℚ)|
        * quantum prec emin q := by
    rw [hneg, abs_neg, abs_mul, abs_of_pos hQ]
  rw [hmul]
  have h1 : |q / quantum prec emin q - (roundEven (q / quantum prec emin q) : ℚ)|
      * quantum prec emin q ≤ 1 / 2 * quantum prec emin q :=
    mul_le_mul_of_nonneg_right herr hQ.le
  have h2 : 1 / 2 * quantum prec emin q = pow2 (-(prec : ℤ)) * pow2 (ilog2 |q|) := by
    rw [hsplit]
    ring
  have h3 : pow2 (-(prec : ℤ)) * pow2 (ilog2 |q|) ≤ pow2 (-(prec : ℤ)) * |q| :=
    mul_le_mul_of_nonneg_left (ilog2_spec |q| hpos).1 (pow2_pos _).le
  linarith

theorem onGrid_zero : OnGrid 0 := ⟨0, by simp⟩

theorem onGrid_add {a b : ℚ} (ha : OnGrid a) (hb : OnGrid b) : OnGrid (a + b) := by
  obtain ⟨m, rfl⟩ := ha
  obtain ⟨n, rfl⟩ := hb
  exact ⟨m + n, by push_cast; ring⟩

theorem onGrid_natMul {a : ℚ} (k : ℕ) (ha : OnGrid a) : OnGrid ((k : ℚ) * a) := by
  obtain ⟨m, rfl⟩ := ha
  exact ⟨k * m, by push_cast; ring⟩

theorem roundFloat_zero (prec : Nat) (emin : ℤ) : roundFloat prec emin 0 = 0 := by
  simp [roundFloat]

/-- Every value of `roundFloat 53 (-1022)` is a multiple of `2 ^ (-1074)`. -/
theorem onGrid_roundFloat (q : ℚ) : OnGrid (roundFloat 53 (-1022) q) := by
  by_cases hq : q = 0
  · rw [hq, roundFloat_zero]
    exact onGrid_zero
  · rw [roundFloat_of_ne_zero _ _ _ hq]
    unfold quantum
    have hmax := le_max_right (ilog2 |q|) (-1022)
    obtain ⟨d, hd⟩ : ∃ d : ℕ, max (ilog2 |q|) (-1022) - (((53 : ℕ) : ℤ) - 1)
        = (d : ℤ) + (-1074) :=
      ⟨(max (ilog2 |q|) (-1022) - (((53 : ℕ) : ℤ) - 1) + 1074).toNat, by
        push_cast
        omega⟩
    rw [hd, pow2_add, pow2_natCast]
    exact ⟨roundEven (q / (((2 ^ d : ℤ) : ℚ) * pow2 (-1074))) * 2 ^ d, by push_cast; ring⟩

/-- A multiple of `2 ^ (-1074)` below the normal range is a binary64 number: rounding
leaves it unchanged. -/
theorem roundFloat_of_onGrid_small (q : ℚ) (hg : OnGrid q) (hs : |q| < pow2 (-1022)) :
    roundFloat 53 (-1022) q = q := by
  by_cases hq : q = 0
  · rw [hq, roundFloat_zero]
  · obtain ⟨n, hn⟩ := hg
    have hpos := abs_pos.2 hq
    have hlog : ilog2 |q| < -1022 :=
      pow2_lt_pow2_iff.1 (lt_of_le_of_lt (ilog2_spec |q| hpos).1 hs)
    have hQ : quantum 53 (-1022) q = pow2 (-1074) := by
      unfold quantum
      rw [max_eq_right hlog.le]
      norm_num
    have hdiv : q / pow2 (-1074) = (n : ℚ) := by
      rw [hn]
      exact mul_div_cancel_right₀ _ (ne_of_gt (pow2_pos _))
    rw [roundFloat_of_ne_zero _ _ _ hq, hQ, hdiv, roundEven_intCast, ← hn]

/-- The sum, product or quotient of binary64 numbers is rounded with a relative error of
at most `2 ^ (-53)` when it is a multiple of `2 ^ (-1074)`, as every sum is. -/
theorem roundFloat53_err_onGrid (q : ℚ) (hg : OnGrid q) :
    |roundFloat 53 (-1022) q - q| ≤ 1 / 2 ^ 53 * |q| := by
  by_cases hs : |q| < pow2 (-1022)
  · rw [roundFloat_of_onGrid_small q hg hs, sub_self, abs_zero]
    positivity
  · have hq : q ≠ 0 := by
      rintro rfl
      rw [abs_zero] at hs
      exact hs (pow2_pos _)
    have h := roundFloat_err_abs 53 (-1022) q hq (not_lt.1 hs)
    have hu : pow2 (-((53 : ℕ) : ℤ)) = 1 / 2 ^ 53 := by
      rw [pow2_eq_zpow]
      norm_num
    rw [hu] at h
    exact h

namespace Float64

theorem toRat_fin (q : ℚ) : (fin q).toRat = q := rfl

/-- A finite result is below the overflow threshold. -/
theorem lt_pow2_of_ofRat_eq_fin {q r : ℚ} (h : ofRat q = fin r) :
    roundFloat 53 (-1022) q < pow2 1024 := by
  unfold ofRat at h
  split at h
  · exact Float64.noConfusion h
  · rename_i h1
    exact not_le.1 h1

theorem add_eq_fin {a b : Float64} {x : ℚ} (h : a + b = fin x) :
    ∃ r₁ r₂, a = fin r₁ ∧ b = fin r₂ ∧ ofRat (r₁ + r₂) = fin x := by
  cases a <;> cases b <;> simp only [add_def, Float64.add] at h
  case fin.fin r₁ r₂ => exact ⟨r₁, r₂, rfl, rfl, h⟩
  all_goals exact Float64.noConfusion h

theorem onGrid_of_ofRat_eq_fin {q x : ℚ} (h : ofRat q = fin x) : OnGrid x := by
  rw [eq_roundFloat_of_ofRat_eq_fin h]
  exact onGrid_roundFloat q

/-- A sum that is a number started from a number. -/
theorem foldl_add_init_fin (l : List Float64) :
    ∀ (a : Float64) (s : ℚ), l.foldl (· + ·) a = fin s → ∃ r, a = fin r := by
  induction l with
  | nil => exact fun a s h => ⟨s, h⟩
  | cons x l ih =>
    intro a s h
    rw [List.foldl_cons] at h
    obtain ⟨r, hr⟩ := ih _ s h
    obtain ⟨r₁, _, h1, _, _⟩ := add_eq_fin hr
    exact ⟨r₁, h1⟩

/-- Error of a `float64` sum: when the terms `l`, added one by one to the number `a`, give
the number `s`, every term is a number, and `s` differs from the exact sum by at most
`(1 + 2^-53)^n - 1` times the sum of the magnitudes, `n` being the number of terms. -/
theorem foldl_add_err (l : List Float64) :
    ∀ (a s : ℚ), OnGrid a → (∀ t, fin t ∈ l → OnGrid t) → l.foldl (· + ·) (fin a) = fin s →
      OnGrid s ∧ |s - (a + (l.map toRat).sum)|
        ≤ ((1 + 1 / 2 ^ 53) ^ l.length - 1) * (|a| + (l.map (fun x => |x.toRat|)).sum) := by
  induction l with
  | nil =>
    intro a s ha _ h
    have hs : a = s := fin.inj h
    subst hs
    simp [ha]
  | cons x l ih =>
    intro a s ha hl h
    rw [List.foldl_cons] at h
    obtain ⟨r, hr⟩ := foldl_add_init_fin l _ s h
    obtain ⟨a', t, ha', ht, hsum⟩ := add_eq_fin hr
    have haa : a = a' := fin.inj ha'
    subst haa
    subst ht
    have htg : OnGrid t := hl t (List.mem_cons_self _ _)
    have hrg : OnGrid r := onGrid_of_ofRat_eq_fin hsum
    have hre := eq_roundFloat_of_ofRat_eq_fin hsum
    have herr := roundFloat53_err_onGrid (a + t) (onGrid_add ha htg)
    rw [← hre] at herr
    rw [hr] at h
    obtain ⟨hsg, hih⟩ := ih r s hrg (fun t' ht' => hl t' (List.mem_cons_of_mem _ ht')) h
    refine ⟨hsg, ?_⟩
    simp only [List.map_cons, List.sum_cons, List.length_cons, toRat_fin]
    rw [pow_succ]
    set S := (l.map toRat).sum with hS
    set E := (l.map (fun x => |x.toRat|)).sum with hE
    set c := (1 + 1 / 2 ^ 53 : ℚ) ^ l.length with hc
    have hE0 : 0 ≤ E := by
      rw [hE]
      apply List.sum_nonneg
      intro y hy
      obtain ⟨z, _, rfl⟩ := List.mem_map.1 hy
      exact abs_nonneg _
    have hc1 : 1 ≤ c := one_le_pow₀ (by norm_num)
    have hD : |a + t| ≤ |a| + |t| := abs_add a t
    have hr_abs : |r| ≤ (1 + 1 / 2 ^ 53) * (|a| + |t|) := by
      have h1 : |r| ≤ |r - (a + t)| + |a + t| := by
        have := abs_add (r - (a + t)) (a + t)
        rwa [sub_add_cancel] at this
      have h2 : (1 : ℚ) / 2 ^ 53 * |a + t| ≤ 1 / 2 ^ 53 * (|a| + |t|) :=
        mul_le_mul_of_nonneg_left hD (by positivity)
      linarith
    have htri : |s - (a + (t + S))| ≤ |s - (r + S)| + |r - (a + t)| := by
      have := abs_add (s - (r + S)) (r - (a + t))
      have hrw : s - (r + S) + (r - (a + t)) = s - (a + (t + S)) := by ring
      rwa [hrw] at this
    have hstep1 : (c - 1) * (|r| + E) ≤ (c - 1) * ((1 + 1 / 2 ^ 53) * (|a| + |t|) + E) :=
      mul_le_mul_of_nonneg_left (by linarith) (by linarith)
    have hu_nonneg : (0 : ℚ) ≤ 1 / 2 ^ 53 := by positivity
    have hD0 : 0 ≤ |a| + |t| := add_nonneg (abs_nonneg _) (abs_nonneg _)
    have hfinal : (c - 1) * ((1 + 1 / 2 ^ 53) * (|a| + |t|) + E) + 1 / 2 ^ 53 * (|a| + |t|)
        ≤ (c * (1 + 1 / 2 ^ 53) - 1) * (|a| + (|t| + E)) := by
      have hcu : 0 ≤ c * (1 / 2 ^ 53) * E := mul_nonneg (mul_nonneg (by linarith) hu_nonneg) hE0
      have hexp : (c * (1 + 1 / 2 ^ 53) - 1) * (|a| + (|t| + E))
          - ((c - 1) * ((1 + 1 / 2 ^ 53) * (|a| + |t|) + E) + 1 / 2 ^ 53 * (|a| + |t|))
          = c * (1 / 2 ^ 53) * E := by ring
      linarith
    have hD2 : (1 : ℚ) / 2 ^ 53 * |a + t| ≤ 1 / 2 ^ 53 * (|a| + |t|) :=
      mul_le_mul_of_nonneg_left hD hu_nonneg
    linarith

end Float64

/-- The terms `Price * weight` of a weight table that `minBudget` adds up. -/
theorem minBudget_terms_onGrid (weights : GoMap Stock Float64) (t : ℚ)
    (h : Float64.fin t ∈ weights.entries.map (fun sw => Float64.fin sw.1.Price * sw.2)) :
    OnGrid t := by
  obtain ⟨sw, _, hsw⟩ := List.mem_map.1 h
  obtain ⟨_, _, _, _, hprod⟩ := Float64.mul_eq_fin hsw
  exact Float64.onGrid_of_ofRat_eq_fin hprod

/-- Error of `minBudget`: a budget that is a number `s` is a binary64 number and differs
from the exact sum of the terms `Price * weight` by at most `(1 + 2^-53)^n - 1` times the
sum of their magnitudes, `n` being the number of entries. -/
theorem minBudget_err (weights : GoMap Stock Float64) (s : ℚ)
    (h : minBudget weights = Float64.fin s) :
    OnGrid s ∧
      |s - (weights.entries.map (fun sw => (Float64.fin sw.1.Price * sw.2).toRat)).sum|
        ≤ ((1 + 1 / 2 ^ 53) ^ weights.len - 1) *
          (weights.entries.map (fun sw => |(Float64.fin sw.1.Price * sw.2).toRat|)).sum := by
  rw [minBudget_eq_foldl] at h
  have h0 : (0 : Float64) = Float64.fin 0 := by
    rw [Float64.ofNat_def, Nat.cast_zero]
  rw [h0] at h
  obtain ⟨hg, herr⟩ := Float64.foldl_add_err _ 0 s onGrid_zero
    (minBudget_terms_onGrid weights) h
  refine ⟨hg, ?_⟩
  simp only [List.map_map, List.length_map, zero_add, abs_zero] at herr
  exact herr
/-! ## Claims -/

/-- C6: for every header containing the five column names and every sequence of data rows
with the header's field count whose Price and Market Cap fields parse as numbers, `readCSV`
returns as many equities as there are data rows, in the same order, and the fields of the
`i`-th equity are the values of the `i`-th row in columns named Symbol, Name, Sector, Price
and Market Cap (the two numeric fields being the parsed values). -/
theorem readCSV_decodes_rows_in_order (header : List String) (rows : List (List String))
    (hSym : "Symbol" ∈ header) (hName : "Name" ∈ header) (hSect : "Sector" ∈ header)
    (hPrice : "Price" ∈ header) (hCap : "Market Cap" ∈ header)
    (hlen : ∀ r ∈ rows, r.length = header.length)
    (hparseP : ∀ r ∈ rows, ∀ (j : Nat) (f : String), header[j]? = some "Price" → r[j]? = some f →
      ∃ v, ParseFloat f 32 = .ok v)
    (hparseC : ∀ r ∈ rows, ∀ (j : Nat) (f : String), header[j]? = some "Market Cap" → r[j]? = some f →
      ∃ v, ParseFloat f 64 = .ok v) :
    ∃ (iSym iName iSect iPrice iCap : Nat) (stocks : List Stock) (largest : ℚ),
      header[iSym]? = some "Symbol" ∧ header[iName]? = some "Name" ∧
      header[iSect]? = some "Sector" ∧ header[iPrice]? = some "Price" ∧
      header[iCap]? = some "Market Cap" ∧
      readCSV (.record header :: rows.map .record) = .ok stocks largest ∧
      stocks.length = rows.length ∧
      ∀ (i : Nat) (r : List String), rows[i]? = some r → ∃ s : Stock, stocks[i]? = some s ∧
        r[iSym]? = some s.Symbol ∧ r[iName]? = some s.Name ∧ r[iSect]? = some s.Sector ∧
        (∃ f, r[iPrice]? = some f ∧ ParseFloat f 32 = .ok s.Price) ∧
        (∃ f, r[iCap]? = some f ∧ ParseFloat f 64 = .ok s.MarketCap) := by
  have hs := fieldIndexes_role Columns.symMap "Symbol" headerStep_symMap header hSym
  have hn := fieldIndexes_role Columns.nameMap "Name" headerStep_nameMap header hName
  have ht := fieldIndexes_role Columns.sectMap "Sector" headerStep_sectMap header hSect
  have hp := fieldIndexes_role Columns.pMap "Price" headerStep_pMap header hPrice
  have hc := fieldIndexes_role Columns.capMap "Market Cap" headerStep_capMap header hCap
  have hdec : ∀ r ∈ rows, ∃ s, DecodesTo (fieldIndexes header) r s := by
    intro r hr
    have hl := hlen r hr
    obtain ⟨sym, hsym⟩ := exists_getElem?_of_lt (hl ▸ lt_length_of_getElem? hs)
    obtain ⟨name, hname⟩ := exists_getElem?_of_lt (hl ▸ lt_length_of_getElem? hn)
    obtain ⟨sect, hsect⟩ := exists_getElem?_of_lt (hl ▸ lt_length_of_getElem? ht)
    obtain ⟨pf, hpf⟩ := exists_getElem?_of_lt (hl ▸ lt_length_of_getElem? hp)
    obtain ⟨cf, hcf⟩ := exists_getElem?_of_lt (hl ▸ lt_length_of_getElem? hc)
    obtain ⟨price, hprice⟩ := hparseP r hr _ pf hp hpf
    obtain ⟨cap, hcap⟩ := hparseC r hr _ cf hc hcf
    exact ⟨⟨sym, name, sect, price, cap⟩, hsym, hname, hsect, ⟨pf, hpf, hprice⟩, ⟨cf, hcf, hcap⟩⟩
  obtain ⟨new, largest, hrun, hall⟩ := readRows_decodes (fieldIndexes header) rows hdec [] 0
  refine ⟨_, _, _, _, _, new, largest, hs, hn, ht, hp, hc, ?_, hall.length_eq.symm, ?_⟩
  · simpa [readCSV] using hrun
  · intro i r hir
    obtain ⟨s, hsi, hd⟩ := forall₂_getElem? hall i r hir
    exact ⟨s, hsi, hd⟩

/-- Witness for C6: the header and the two data rows of Scenario A. -/
theorem readCSV_decodes_rows_in_order_witness :
    ∃ (iSym iName iSect iPrice iCap : Nat) (stocks : List Stock) (largest : ℚ),
      headerA[iSym]? = some "Symbol" ∧ headerA[iName]? = some "Name" ∧
      headerA[iSect]? = some "Sector" ∧ headerA[iPrice]? = some "Price" ∧
      headerA[iCap]? = some "Market Cap" ∧
      readCSV (.record headerA :: rowsA.map .record) = .ok stocks largest ∧
      stocks.length = rowsA.length ∧
      ∀ (i : Nat) (r : List String), rowsA[i]? = some r → ∃ s : Stock, stocks[i]? = some s ∧
        r[iSym]? = some s.Symbol ∧ r[iName]? = some s.Name ∧ r[iSect]? = some s.Sector ∧
        (∃ f, r[iPrice]? = some f ∧ ParseFloat f 32 = .ok s.Price) ∧
        (∃ f, r[iCap]? = some f ∧ ParseFloat f 64 = .ok s.MarketCap) :=
  readCSV_decodes_rows_in_order headerA rowsA (by decide) (by decide) (by decide) (by decide)
    (by decide) (by decide)
    (by
      intro r hr j f hj hf
      have hj3 : j = 3 := by
        rcases j with _ | _ | _ | _ | _ | j <;> simp [headerA] at hj ⊢
      subst hj3
      simp only [rowsA, List.mem_cons, List.mem_singleton, List.not_mem_nil, or_false] at hr
      rcases hr with rfl | rfl
      · simp only [List.getElem?_cons_succ, List.getElem?_cons_zero, Option.some.injEq] at hf
        exact ⟨10, by rw [← hf]; decide!⟩
      · simp only [List.getElem?_cons_succ, List.getElem?_cons_zero, Option.some.injEq] at hf
        exact ⟨5, by rw [← hf]; decide!⟩)
    (by
      intro r hr j f hj hf
      have hj4 : j = 4 := by
        rcases j with _ | _ | _ | _ | _ | j <;> simp [headerA] at hj ⊢
      subst hj4
      simp only [rowsA, List.mem_cons, List.mem_singleton, List.not_mem_nil, or_false] at hr
      rcases hr with rfl | rfl
      · simp only [List.getElem?_cons_succ, List.getElem?_cons_zero, Option.some.injEq] at hf
        exact ⟨1000000, by rw [← hf]; decide!⟩
      · simp only [List.getElem?_cons_succ, List.getElem?_cons_zero, Option.some.injEq] at hf
        exact ⟨500000, by rw [← hf]; decide!⟩)

/-- C8: column resolution is order-independent.  For every permutation `p` of the five
columns Symbol, Name, Sector, Price, Market Cap, applying `p` to the header and to every
data row leaves the result of `readCSV` unchanged; in particular the header
`Market Cap,Symbol,Price,Name,Sector` with rows reordered in the same way decodes like the
in-order table. -/
theorem readCSV_column_order_independent (rows : List (Fin 5 → String)) :
    (∀ p : Equiv.Perm (Fin 5),
      readCSV (permutedReader p columnNames rows) =
        readCSV (.record [ "Symbol", "Name", "Sector", "Price", "Market Cap"] ::
          rows.map (fun r => .record [r 0, r 1, r 2, r 3, r 4]))) ∧
      readCSV (.record [ "Market Cap", "Symbol", "Price", "Name", "Sector"] ::
          rows.map (fun r => .record [r 4, r 0, r 3, r 1, r 2])) =
        readCSV (.record [ "Symbol", "Name", "Sector", "Price", "Market Cap"] ::
          rows.map (fun r => .record [r 0, r 1, r 2, r 3, r 4])) := by
  have hid : readCSV (.record [ "Symbol", "Name", "Sector", "Price", "Market Cap"] ::
      rows.map (fun r => .record [r 0, r 1, r 2, r 3, r 4])) =
      readRows ⟨0, 1, 2, 3, 4⟩ (rows.map (fun r => .record (List.ofFn r))) [] 0 := by
    rw [← readCSV_permutedReader 1 rows]
    simp only [permutedReader, permuteFields, ofFn_five, Equiv.Perm.coe_one, id_eq]
    rfl
  refine ⟨fun p => (readCSV_permutedReader p rows).trans hid.symm, ?_⟩
  rw [hid, ← readCSV_permutedReader scenarioDPerm rows]
  simp only [permutedReader, permuteFields, ofFn_five]
  rfl

/-- C13: for a reader whose records have the field count of the non-empty header (what
`csv.Reader` gives), `readCSV` returns a `(stocks, largest)` result if and only if every
result read after the header is a record whose Price field and Market Cap field both
parse; otherwise the run is aborted, by an error return or by `log.Fatal`, and no equity
list is produced.  When the header cannot be read, the error is returned. -/
theorem readCSV_succeeds_iff_all_rows_parse (header : List String) (rest : Reader)
    (hhdr : header ≠ [])
    (hwf : ∀ r, ReadResult.record r ∈ rest → r.length = header.length) :
    ((∃ stocks largest, readCSV (.record header :: rest) = .ok stocks largest) ↔
        ∀ x ∈ rest, ∃ r, x = ReadResult.record r ∧
          (∃ f v, r[(fieldIndexes header).pMap]? = some f ∧ ParseFloat f 32 = .ok v) ∧
          (∃ f v, r[(fieldIndexes header).capMap]? = some f ∧ ParseFloat f 64 = .ok v)) ∧
      ((¬ ∃ stocks largest, readCSV (.record header :: rest) = .ok stocks largest) →
        ∃ e, readCSV (.record header :: rest) = .err e ∨
          readCSV (.record header :: rest) = .fatal e) ∧
      readCSV [] = .err .EOF ∧
      ∀ msg rest', readCSV (.failure msg :: rest') = .err (.csv msg) := by
  refine ⟨⟨?_, ?_⟩, ?_, rfl, fun _ _ => rfl⟩
  · rintro ⟨stocks, largest, hok⟩ x hx
    obtain ⟨rows, new, hr, _, hall⟩ := readRows_ok_forall₂ _ _ _ _ _ _ hok
    rw [hr] at hx
    obtain ⟨r, hrm, rfl⟩ := List.mem_map.1 hx
    obtain ⟨s, _, _, _, _, ⟨pf, hpf, hpv⟩, ⟨cf, hcf, hcv⟩⟩ := exists_mem_of_forall₂_left hall r hrm
    exact ⟨r, rfl, ⟨pf, s.Price, hpf, hpv⟩, ⟨cf, s.MarketCap, hcf, hcv⟩⟩
  · intro hall
    obtain ⟨rows, hrows, hP⟩ := records_of_forall
      (fun r => (∃ f v, r[(fieldIndexes header).pMap]? = some f ∧ ParseFloat f 32 = .ok v) ∧
        (∃ f v, r[(fieldIndexes header).capMap]? = some f ∧ ParseFloat f 64 = .ok v)) rest hall
    have hdec : ∀ r ∈ rows, ∃ s, DecodesTo (fieldIndexes header) r s := by
      intro r hr
      have hlen : r.length = header.length :=
        hwf r (hrows ▸ List.mem_map_of_mem ReadResult.record hr)
      exact decodesTo_of_parse header r hlen (hP r hr).1 (hP r hr).2
    obtain ⟨new, largest, hrun, _⟩ := readRows_decodes (fieldIndexes header) rows hdec [] 0
    exact ⟨[] ++ new, largest, by rw [hrows]; exact hrun⟩
  · intro hnot
    have hin : ∀ r, ReadResult.record r ∈ rest →
        (fieldIndexes header).symMap < r.length ∧ (fieldIndexes header).nameMap < r.length ∧
          (fieldIndexes header).sectMap < r.length ∧ (fieldIndexes header).pMap < r.length ∧
          (fieldIndexes header).capMap < r.length :=
      fun r hr => fieldIndexes_in_range header hhdr r (hwf r hr)
    rcases readRows_outcome (fieldIndexes header) rest hin [] 0 with h | ⟨e, h⟩ | ⟨e, h⟩
    · exact absurd h hnot
    · exact ⟨e, Or.inl h⟩
    · exact ⟨e, Or.inr h⟩

/-- Witness for C13: the reader of Scenario A, whose rows all parse. -/
theorem readCSV_succeeds_iff_all_rows_parse_witness :
    ((∃ stocks largest, readCSV (.record headerA :: rowsA.map .record) = .ok stocks largest) ↔
        ∀ x ∈ rowsA.map ReadResult.record, ∃ r, x = ReadResult.record r ∧
          (∃ f v, r[(fieldIndexes headerA).pMap]? = some f ∧ ParseFloat f 32 = .ok v) ∧
          (∃ f v, r[(fieldIndexes headerA).capMap]? = some f ∧ ParseFloat f 64 = .ok v)) ∧
      ((¬ ∃ stocks largest, readCSV (.record headerA :: rowsA.map .record) = .ok stocks largest) →
        ∃ e, readCSV (.record headerA :: rowsA.map .record) = .err e ∨
          readCSV (.record headerA :: rowsA.map .record) = .fatal e) ∧
      readCSV [] = .err .EOF ∧
      ∀ msg rest', readCSV (.failure msg :: rest') = .err (.csv msg) :=
  readCSV_succeeds_iff_all_rows_parse headerA (rowsA.map .record) (by decide)
    (by
      intro r hr
      simp only [rowsA, List.map_cons, List.map_nil, List.mem_cons, ReadResult.record.injEq,
        List.not_mem_nil, or_false] at hr
      rcases hr with rfl | rfl <;> rfl)

/-- C14, counterexample: the header `Price,Symbol,Name,Sector` has no Market Cap column,
yet `readCSV` raises no error on the row `10.0,AAA,Alpha Co,Tech`: it returns the equity
with the market cap read from the first column, the price. -/
theorem missing_market_cap_counterexample :
    "Market Cap" ∉ headerNoCap ∧ readCSV readerNoCap = .ok [stockNoCap] 10 := by
  decide!

/-- C14, amended: for every header without a column named Market Cap, the Market Cap role
is resolved to index `0`, and whenever `readCSV` returns normally it has read only records
and the market cap of each decoded equity is the parsed value of the first field of its
row. -/
theorem missing_market_cap_reads_first_column (header : List String)
    (hmiss : "Market Cap" ∉ header) :
    (fieldIndexes header).capMap = 0 ∧
      ∀ rest stocks largest, readCSV (.record header :: rest) = .ok stocks largest →
        ∃ rows : List (List String), rest = rows.map .record ∧
          List.Forall₂ (fun r s => ∃ f, r[0]? = some f ∧ ParseFloat f 64 = .ok s.MarketCap)
            rows stocks := by
  have h0 := fieldIndexes_absent Columns.capMap "Market Cap" headerStep_capMap rfl header hmiss
  refine ⟨h0, ?_⟩
  intro rest stocks largest hok
  obtain ⟨rows, new, hr, hs, hall⟩ := readRows_ok_forall₂ _ _ _ _ _ _ hok
  rw [List.nil_append] at hs
  refine ⟨rows, hr, ?_⟩
  rw [hs]
  refine List.Forall₂.imp ?_ hall
  intro r s hd
  obtain ⟨_, _, _, _, hcap⟩ := hd
  rw [h0] at hcap
  exact hcap

/-- Witness for the amended C14: the header `Price,Symbol,Name,Sector`. -/
theorem missing_market_cap_reads_first_column_witness :
    (fieldIndexes headerNoCap).capMap = 0 ∧
      ∀ rest stocks largest, readCSV (.record headerNoCap :: rest) = .ok stocks largest →
        ∃ rows : List (List String), rest = rows.map .record ∧
          List.Forall₂ (fun r s => ∃ f, r[0]? = some f ∧ ParseFloat f 64 = .ok s.MarketCap)
            rows stocks :=
  missing_market_cap_reads_first_column headerNoCap (by decide)

/-- C16: for every header, each of the five column roles whose name matches no header cell
is resolved by `readCSV` to index `0`, and a role whose name occurs in the header is
resolved to the position of a cell with exactly that name; every equity that `readCSV`
returns is decoded from its row at the resolved indexes, so an unmatched role is read from
the first column. -/
theorem unmatched_roles_default_to_first_column (header : List String) :
    (("Symbol" ∉ header → (fieldIndexes header).symMap = 0) ∧
        ("Symbol" ∈ header → header[(fieldIndexes header).symMap]? = some "Symbol")) ∧
      (("Name" ∉ header → (fieldIndexes header).nameMap = 0) ∧
        ("Name" ∈ header → header[(fieldIndexes header).nameMap]? = some "Name")) ∧
      (("Sector" ∉ header → (fieldIndexes header).sectMap = 0) ∧
        ("Sector" ∈ header → header[(fieldIndexes header).sectMap]? = some "Sector")) ∧
      (("Price" ∉ header → (fieldIndexes header).pMap = 0) ∧
        ("Price" ∈ header → header[(fieldIndexes header).pMap]? = some "Price")) ∧
      (("Market Cap" ∉ header → (fieldIndexes header).capMap = 0) ∧
        ("Market Cap" ∈ header →
          header[(fieldIndexes header).capMap]? = some "Market Cap")) ∧
      ∀ rest stocks largest, readCSV (.record header :: rest) = .ok stocks largest →
        ∃ rows : List (List String), rest = rows.map .record ∧
          List.Forall₂ (fun r s =>
            r[(fieldIndexes header).symMap]? = some s.Symbol ∧
            r[(fieldIndexes header).nameMap]? = some s.Name ∧
            r[(fieldIndexes header).sectMap]? = some s.Sector ∧
            (∃ f, r[(fieldIndexes header).pMap]? = some f ∧ ParseFloat f 32 = .ok s.Price) ∧
            (∃ f, r[(fieldIndexes header).capMap]? = some f ∧
              ParseFloat f 64 = .ok s.MarketCap)) rows stocks := by
  refine ⟨⟨fieldIndexes_absent Columns.symMap "Symbol" headerStep_symMap rfl header,
      fieldIndexes_role Columns.symMap "Symbol" headerStep_symMap header⟩,
    ⟨fieldIndexes_absent Columns.nameMap "Name" headerStep_nameMap rfl header,
      fieldIndexes_role Columns.nameMap "Name" headerStep_nameMap header⟩,
    ⟨fieldIndexes_absent Columns.sectMap "Sector" headerStep_sectMap rfl header,
      fieldIndexes_role Columns.sectMap "Sector" headerStep_sectMap header⟩,
    ⟨fieldIndexes_absent Columns.pMap "Price" headerStep_pMap rfl header,
      fieldIndexes_role Columns.pMap "Price" headerStep_pMap header⟩,
    ⟨fieldIndexes_absent Columns.capMap "Market Cap" headerStep_capMap rfl header,
      fieldIndexes_role Columns.capMap "Market Cap" headerStep_capMap header⟩, ?_⟩
  intro rest stocks largest hok
  obtain ⟨rows, new, hr, hs, hall⟩ := readRows_ok_forall₂ _ _ _ _ _ _ hok
  rw [List.nil_append] at hs
  exact ⟨rows, hr, hs ▸ hall⟩

/-- C1: for every list of equities `data` and every number `largest`, the table
`computeRelative data largest` binds every equity `e` that occurs in `data` to
`largest / e.MarketCap`, and binds no equity that does not occur in `data`. -/
theorem computeRelative_maps_each_equity (data : List Stock) (largest : ℚ) (e : Stock) :
    (e ∈ data → (computeRelative data largest).get? e
        = some (Float64.fin largest / Float64.fin e.MarketCap)) ∧
      (e ∉ data → (computeRelative data largest).get? e = none) := by
  rw [get?_computeRelative]
  constructor
  · intro h
    simp [h]
  · intro h
    simp [h]

/-- C2: for every weight table, `minBudget` is the sum over the entries `(e, w)` of the
table of `e.Price * w`, the terms being added from `0` in the order the entries are
visited; for the empty table it is `0`. -/
theorem minBudget_is_sum_over_entries (weights : GoMap Stock Float64) :
    minBudget weights =
        (weights.entries.map (fun sw => Float64.fin sw.1.Price * sw.2)).foldl (· + ·) 0 ∧
      minBudget GoMap.make = 0 := by
  constructor
  · exact minBudget_eq_foldl weights
  · rfl

/-- C4: when `readCSV` returns `(stocks, largest)` for a non-empty sequence of data rows
whose market caps are all positive, every equity whose market cap is the maximum of the set
has weight exactly `1` in `computeRelative stocks largest`. -/
theorem max_cap_equity_has_weight_one (reader : Reader) (stocks : List Stock) (largest : ℚ)
    (hread : readCSV reader = .ok stocks largest) (hne : stocks ≠ [])
    (hpos : ∀ s ∈ stocks, 0 < s.MarketCap) (e : Stock) (he : e ∈ stocks)
    (hmax : ∀ s ∈ stocks, s.MarketCap ≤ e.MarketCap) :
    (computeRelative stocks largest).get? e = some 1 := by
  have _ := hne
  have hl := readCSV_ok_largest reader stocks largest hread
  have hge : e.MarketCap ≤ largest := hl ▸ foldl_max_mem_le stocks 0 e he
  have hle : largest ≤ e.MarketCap := by
    rcases foldl_max_attained stocks 0 with h | ⟨s, hs, hsv⟩
    · rw [hl, h]
      exact le_of_lt (hpos e he)
    · rw [hl, ← hsv]
      exact hmax s hs
  have heq : largest = e.MarketCap := le_antisymm hle hge
  have hne0 : e.MarketCap ≠ 0 := ne_of_gt (hpos e he)
  rw [get?_computeRelative, if_pos he, heq]
  simp only [Float64.div_def, Float64.div, if_neg hne0, div_self hne0, Float64.ofRat_one]

/-- Witness for C4: Scenario A, where AAA holds the maximum market cap. -/
theorem max_cap_equity_has_weight_one_witness :
    (computeRelative [stockAAA, stockBBB] 1000000).get? stockAAA = some 1 :=
  max_cap_equity_has_weight_one readerA [stockAAA, stockBBB] 1000000 (by decide!)
    (by simp) (by decide!) stockAAA (by decide!) (by decide!)

/-- C5: Scenario A end to end.  `readCSV` returns the equities AAA and BBB with
`largest = 1000000`; `computeRelative` gives AAA weight `1` and BBB weight `2` (and nothing
else); `minBudget` of that table is `20`; `shares 40 20` gives AAA `2` shares and BBB `4`. -/
theorem scenario_A_end_to_end :
    readCSV readerA = .ok [stockAAA, stockBBB] 1000000 ∧
      (computeRelative [stockAAA, stockBBB] 1000000).get? stockAAA = some 1 ∧
      (computeRelative [stockAAA, stockBBB] 1000000).get? stockBBB = some 2 ∧
      (computeRelative [stockAAA, stockBBB] 1000000).len = 2 ∧
      minBudget (computeRelative [stockAAA, stockBBB] 1000000) = 20 ∧
      (shares 40 20 (computeRelative [stockAAA, stockBBB] 1000000)).get? stockAAA = some 2 ∧
      (shares 40 20 (computeRelative [stockAAA, stockBBB] 1000000)).get? stockBBB = some 4 ∧
      (shares 40 20 (computeRelative [stockAAA, stockBBB] 1000000)).len = 2 := by
  decide!

/-- C7, evaluation at the failing input: for the single data row
`AAA,Alpha Co,Tech,10.0,-5` the decoder returns `largest = 0`, while the largest market
cap of the table, the only one, is `-5`. -/
theorem readCSV_largest_at_negative_cap :
    readCSV readerNeg = .ok [stockNeg] 0 ∧ stockNeg.MarketCap = -5 ∧
      ¬ ((∃ s ∈ [stockNeg], s.MarketCap = 0) ∧ ∀ s ∈ [stockNeg], s.MarketCap ≤ 0) := by
  decide!

/-- C20: duplicate records collapse.  For every list of equities, the number of entries of
`computeRelative data largest` is the number of distinct full records in `data`, and the
table has one entry for each distinct record, which contributes its `Price * weight` to
`minBudget` once; records differing in any field are separate entries (two records are the
same exactly when all five fields agree). -/
theorem duplicate_records_collapse (data : List Stock) (largest : ℚ) :
    (computeRelative data largest).len = data.dedup.length ∧
      (∃ order : List Stock, order.Perm data.dedup ∧
        (computeRelative data largest).entries =
          order.map (fun e => (e, Float64.fin largest / Float64.fin e.MarketCap)) ∧
        minBudget (computeRelative data largest) =
          (order.map (fun e => Float64.fin e.Price *
            (Float64.fin largest / Float64.fin e.MarketCap))).foldl (· + ·) 0) ∧
      ∀ a b : Stock, a = b ↔ (a.Symbol = b.Symbol ∧ a.Name = b.Name ∧ a.Sector = b.Sector ∧
        a.Price = b.Price ∧ a.MarketCap = b.MarketCap) := by
  refine ⟨?_, ⟨(computeRelative data largest).keys, ?_, entries_computeRelative data largest, ?_⟩,
    ?_⟩
  · rw [len_computeRelative, List.card_toFinset]
  · have hk : (computeRelative data largest).keys.Nodup := (computeRelative data largest).nodupKeys
    rw [List.perm_ext_iff_of_nodup hk (List.nodup_dedup data)]
    intro e
    rw [mem_keys_computeRelative, List.mem_dedup]
  · rw [minBudget_eq_foldl]
    conv_lhs => rw [entries_computeRelative]
    rw [List.map_map]
    rfl
  · intro a b
    cases a
    cases b
    simp
/-- C3, counterexample: for the table that gives the equity `stockOne` weight `1`, with
target budget `10^19` and minimum budget `1`, the scaled weight is `10^19`, which does not
fit in the 64-bit `int`: `shares` stores `-9223372036854775808`, not the nearest integer
`10^19`.  And for weight `11`, target budget `15` and minimum budget `22` the exact scaled
weight is `15/2`, which rounds half away from zero to `8`, while `shares` stores `7`: the
`float64` product is just below `15/2`. -/
theorem shares_rounding_counterexample :
    ((0 : Float64) < 1 ∧ weightsOne.get? stockOne = some 1 ∧
      (1 : Float64) * (10000000000000000000 / 1) = Float64.fin 10000000000000000000 ∧
      (shares 10000000000000000000 1 weightsOne).get? stockOne
        = some (-9223372036854775808) ∧
      ¬ |(10000000000000000000 : ℚ) - ((-9223372036854775808 : ℤ) : ℚ)| ≤ 1 / 2) ∧
    ((0 : Float64) < 22 ∧ (computeRelative [stockOne] 11).get? stockOne = some 11 ∧
      (shares 15 22 (computeRelative [stockOne] 11)).get? stockOne = some 7 ∧
      truncToInt (Round (11 * (15 / 22))) = 8) := by
  decide!

/-- C3, amended: for every target budget, every `minBudget > 0` and every weight table, the
table `shares portfolio minBudget weights` has exactly the equities of `weights`; when the
scaled weight `w * (portfolio / minBudget)` of an equity, as `float64` arithmetic computes
it, is a number `x` whose rounded value fits in `int`, the count `n` of the equity is `x`
rounded to the nearest integer, a tie going to the integer of larger magnitude. -/
theorem shares_rounds_scaled_weights (portfolio minBudget : Float64) (hmin : 0 < minBudget)
    (weights : GoMap Stock Float64) (e : Stock) :
    ((shares portfolio minBudget weights).get? e = none ↔ weights.get? e = none) ∧
      ∀ (w : Float64) (x : ℚ), weights.get? e = some w →
        w * (portfolio / minBudget) = Float64.fin x → fitsInt (truncToInt (Round x)) →
        ∃ n : ℤ, (shares portfolio minBudget weights).get? e = some n ∧
          |x - n| ≤ 1 / 2 ∧ (|x - n| = 1 / 2 → |x| < |(n : ℚ)|) := by
  have _ := hmin
  rw [get?_shares]
  constructor
  · simp
  · intro w x hw hx hfit
    refine ⟨truncToInt (Round x), ?_, truncToInt_Round_spec x⟩
    rw [hw, Option.map_some', hx, toInt_Round_fin x hfit]

/-- Witness for the amended C3: the weight table of Scenario A with budget 40 and minimum
budget 20. -/
theorem shares_rounds_scaled_weights_witness :
    ((shares 40 20 weightsA).get? stockBBB = none ↔ weightsA.get? stockBBB = none) ∧
      ∀ (w : Float64) (x : ℚ), weightsA.get? stockBBB = some w →
        w * (40 / 20) = Float64.fin x → fitsInt (truncToInt (Round x)) →
        ∃ n : ℤ, (shares 40 20 weightsA).get? stockBBB = some n ∧
          |x - n| ≤ 1 / 2 ∧ (|x - n| = 1 / 2 → |x| < |(n : ℚ)|) :=
  shares_rounds_scaled_weights 40 20 (by decide!) weightsA stockBBB

/-- C9, counterexample: one equity with market cap `1` and price `1` and the positive
target budget `10^19`: its share count is `-9223372036854775808`, a negative integer. -/
theorem shares_counts_counterexample :
    (∀ s ∈ [stockOne], 0 < s.MarketCap ∧ 0 < s.Price ∧ s.MarketCap ≤ 1) ∧
      stockOne.MarketCap = 1 ∧
      (shares (Float64.fin 10000000000000000000) (minBudget (computeRelative [stockOne] 1))
        (computeRelative [stockOne] 1)).get? stockOne = some (-9223372036854775808) ∧
      ¬ (0 : ℤ) ≤ -9223372036854775808 := by
  decide!

/-- C9, amended: for every non-empty list of equities with positive market caps and
positive prices, with `largest` the maximum market cap and `weights` the table
`computeRelative data largest`, its entries visited in any order, and every positive target
budget, the share count of an equity is a non-negative integer provided its scaled weight,
as `float64` arithmetic computes it, is a number whose rounded value fits in `int`. -/
theorem shares_counts_nonneg (data : List Stock) (largest target : ℚ) (hne : data ≠ [])
    (hcap : ∀ s ∈ data, 0 < s.MarketCap) (hprice : ∀ s ∈ data, 0 < s.Price)
    (hlargest : (∃ s ∈ data, s.MarketCap = largest) ∧ ∀ s ∈ data, s.MarketCap ≤ largest)
    (htarget : 0 < target) (weights : GoMap Stock Float64)
    (hw : weights.entries.Perm (computeRelative data largest).entries) (e : Stock) (n : ℤ)
    (hn : (shares (Float64.fin target) (minBudget weights) weights).get? e = some n)
    (hfit : ∀ w, weights.get? e = some w →
      ∃ x, w * (Float64.fin target / minBudget weights) = Float64.fin x ∧
        fitsInt (truncToInt (Round x))) : 0 ≤ n := by
  have _ := hne
  obtain ⟨⟨s0, hs0, hs0v⟩, _⟩ := hlargest
  have hl : 0 ≤ largest := hs0v ▸ (hcap s0 hs0).le
  have hW : ∀ sw ∈ weights.entries, 0 ≤ sw.1.Price ∧ sw.2.NotNeg := by
    intro sw hsw
    have hsw' := hw.mem_iff.1 hsw
    have hmem := ((mem_entries_computeRelative_iff data largest sw).1 hsw').1
    exact ⟨(hprice _ hmem).le,
      computeRelative_notNeg data largest hl (fun s hs => (hcap s hs).le) sw hsw'⟩
  have hmb := minBudget_notNeg weights hW
  rw [get?_shares] at hn
  cases hwe : weights.get? e with
  | none =>
    rw [hwe] at hn
    exact Option.noConfusion hn
  | some w =>
    obtain ⟨x, hx, hfx⟩ := hfit w hwe
    rw [hwe, Option.map_some', hx, toInt_Round_fin x hfx, Option.some.injEq] at hn
    have hwn : w.NotNeg := by
      have hent : (e, w) ∈ weights.entries :=
        (lookupList_eq_some_iff e w _ weights.nodupKeys).1 hwe
      exact (hW (e, w) hent).2
    have hT : (Float64.fin target).NotNeg := htarget.le
    have hxn : (Float64.fin x).NotNeg := hx ▸ Float64.NotNeg.mul hwn (Float64.NotNeg.div hT hmb)
    rw [← hn]
    exact truncToInt_Round_nonneg x hxn

/-- Witness for the amended C9: Scenario A with target budget 40, where BBB receives 4
shares. -/
theorem shares_counts_nonneg_witness :
    (shares (Float64.fin 40) (minBudget (computeRelative [stockAAA, stockBBB] 1000000))
        (computeRelative [stockAAA, stockBBB] 1000000)).get? stockBBB = some 4 ∧
      (0 : ℤ) ≤ 4 :=
  ⟨by decide!,
    shares_counts_nonneg [stockAAA, stockBBB] 1000000 40 (by simp) (by decide!) (by decide!)
      ⟨⟨stockAAA, by decide!⟩, by decide!⟩ (by norm_num)
      (computeRelative [stockAAA, stockBBB] 1000000) (List.Perm.refl _) stockBBB 4 (by decide!)
      (by
        intro w hw
        have hw2 : (computeRelative [stockAAA, stockBBB] 1000000).get? stockBBB = some 2 := by
          decide!
        rw [hw2, Option.some.injEq] at hw
        subst hw
        exact ⟨4, by decide!, by decide!⟩)⟩

/-- C15, counterexample: Scenario B.  The row `ZZZ,Zeta Co,Retail,5.0,0` has Market Cap
`0`; `readCSV` raises no error and returns the equity with market cap `0`, and
`computeRelative` returns a table that binds it to the infinite weight `+Inf`. -/
theorem zero_market_cap_counterexample :
    readCSV readerZero = .ok [stockAAA, stockZero] 1000000 ∧ stockZero.MarketCap = 0 ∧
      (computeRelative [stockAAA, stockZero] 1000000).get? stockZero
        = some Float64.posInf := by
  decide!

/-- C15, amended: a data row whose Market Cap field is `"0"` is decoded like any other
row.  When the rows have the header's field count and their Price and Market Cap fields
parse, `readCSV` returns normally, some returned equity has market cap `0`, and the table
of `computeRelative` binds it to `+Inf` when `largest` is positive and to NaN when
`largest` is `0`; no error is raised. -/
theorem zero_market_cap_is_not_rejected (header : List String) (rows : List (List String))
    (hlen : ∀ r ∈ rows, r.length = header.length)
    (hparse : ∀ r ∈ rows,
      (∃ f v, r[(fieldIndexes header).pMap]? = some f ∧ ParseFloat f 32 = .ok v) ∧
      (∃ f v, r[(fieldIndexes header).capMap]? = some f ∧ ParseFloat f 64 = .ok v))
    (r0 : List String) (hr0 : r0 ∈ rows)
    (hzero : r0[(fieldIndexes header).capMap]? = some "0") :
    ∃ stocks largest, readCSV (.record header :: rows.map .record) = .ok stocks largest ∧
      ∃ e ∈ stocks, e.MarketCap = 0 ∧
        (computeRelative stocks largest).get? e
          = some (if 0 < largest then Float64.posInf else Float64.nan) := by
  have hdec : ∀ r ∈ rows, ∃ s, DecodesTo (fieldIndexes header) r s := fun r hr =>
    decodesTo_of_parse header r (hlen r hr) (hparse r hr).1 (hparse r hr).2
  obtain ⟨new, largest, hrun, hall⟩ := readRows_decodes (fieldIndexes header) rows hdec [] 0
  rw [List.nil_append] at hrun
  have hok : readCSV (.record header :: rows.map .record) = .ok new largest := hrun
  have hl0 : 0 ≤ largest := by
    rw [readCSV_ok_largest _ _ _ hok]
    exact foldl_max_init_le new 0
  obtain ⟨e, he, _, _, _, _, ⟨cf, hcf, hcv⟩⟩ := exists_mem_of_forall₂_left hall r0 hr0
  have hcap0 : e.MarketCap = 0 := by
    rw [hzero, Option.some.injEq] at hcf
    rw [← hcf] at hcv
    have hz : ParseFloat "0" 64 = .ok 0 := by decide!
    rw [hz] at hcv
    exact (Except.ok.inj hcv).symm
  refine ⟨new, largest, hok, e, he, hcap0, ?_⟩
  rw [get?_computeRelative, if_pos he, hcap0]
  simp only [Float64.div_def, Float64.div, if_true]
  rcases eq_or_lt_of_le hl0 with h | h
  · rw [← h]
    simp
  · rw [if_neg (ne_of_gt h), if_pos h, if_pos h]

/-- Witness for the amended C15: Scenario B. -/
theorem zero_market_cap_is_not_rejected_witness :
    ∃ stocks largest, readCSV (.record headerA :: rowsZero.map .record) = .ok stocks largest ∧
      ∃ e ∈ stocks, e.MarketCap = 0 ∧
        (computeRelative stocks largest).get? e
          = some (if 0 < largest then Float64.posInf else Float64.nan) :=
  zero_market_cap_is_not_rejected headerA rowsZero (by decide)
    (by
      intro r hr
      simp only [rowsZero, List.mem_cons, List.mem_singleton, List.not_mem_nil, or_false] at hr
      rcases hr with rfl | rfl
      · exact ⟨⟨"10.0", 10, by decide!, by decide!⟩, ⟨"1000000", 1000000, by decide!, by decide!⟩⟩
      · exact ⟨⟨"5.0", 5, by decide!, by decide!⟩, ⟨"0", 0, by decide!, by decide!⟩⟩)
    ["ZZZ", "Zeta Co", "Retail", "5.0", "0"] (by decide) (by decide!)

/-- C17, counterexample: one equity of price `1` and weight `1`, target budget `10^19`:
the share count is `-9223372036854775808`, so the realized spend differs from the target
by more than half the price.  And one equity of price `3` and weight `1`, target budget
`3 * 2^51 + 1`: the quotient `T / 3` rounds to `2^51 + 1/2` in `float64`, the share count
is `2^51 + 1` and the realized spend exceeds the target by `2`, more than half the price. -/
theorem realized_spend_counterexample :
    ((∀ e ∈ weightsOne.keys, 0 ≤ e.Price) ∧ 0 < minBudget weightsOne ∧
      weightsOne.keys = [stockOne] ∧
      (shares (Float64.fin 10000000000000000000) (minBudget weightsOne) weightsOne).get?
        stockOne = some (-9223372036854775808) ∧
      ¬ |stockOne.Price * ((-9223372036854775808 : ℤ) : ℚ) - 10000000000000000000|
        ≤ 1 / 2 * stockOne.Price) ∧
    ((∀ e ∈ (computeRelative [stockTriple] 1).keys, 0 ≤ e.Price) ∧
      0 < minBudget (computeRelative [stockTriple] 1) ∧
      (computeRelative [stockTriple] 1).keys = [stockTriple] ∧
      (shares (Float64.fin 6755399441055745) (minBudget (computeRelative [stockTriple] 1))
        (computeRelative [stockTriple] 1)).get? stockTriple = some 2251799813685249 ∧
      ¬ |stockTriple.Price * ((2251799813685249 : ℤ) : ℚ) - 6755399441055745|
        ≤ 1 / 2 * stockTriple.Price) := by
  decide!

/-- C17, amended: bounded rounding drift.  For every weight table with non-negative prices
and `minBudget weights > 0` and every target budget `T`, when every scaled weight
`weights[e] * (T / minBudget weights)`, as `float64` arithmetic computes it, is a number whose
rounded value fits in `int`, the realized spend `Σ e.Price * s[e]` of the allocation
`s = shares T (minBudget weights) weights` differs from the spend of the scaled weights
themselves by at most half the sum of the prices, the sums being exact and ranging over
the equities of the table. -/
theorem realized_spend_within_half_prices (weights : GoMap Stock Float64)
    (hprice : ∀ e ∈ weights.keys, 0 ≤ e.Price) (hmin : 0 < minBudget weights) (T : ℚ)
    (hfit : ∀ e w, weights.get? e = some w →
      ∃ x, w * (Float64.fin T / minBudget weights) = Float64.fin x ∧
        fitsInt (truncToInt (Round x))) :
    |(∑ e ∈ weights.keys.toFinset, e.Price *
          ((((shares (Float64.fin T) (minBudget weights) weights).get? e).getD 0 : ℤ) : ℚ)) -
        ∑ e ∈ weights.keys.toFinset, e.Price *
          (((weights.get? e).getD 0) * (Float64.fin T / minBudget weights)).toRat|
      ≤ 1 / 2 * ∑ e ∈ weights.keys.toFinset, e.Price := by
  have _ := hmin
  rw [← Finset.sum_sub_distrib, Finset.mul_sum]
  refine le_trans (Finset.abs_sum_le_sum_abs _ _) (Finset.sum_le_sum ?_)
  intro e he
  have hk : e ∈ weights.keys := List.mem_toFinset.1 he
  have hp := hprice e hk
  obtain ⟨w, hw⟩ := Option.ne_none_iff_exists'.1 ((mem_keys_iff weights e).1 hk)
  obtain ⟨x, hx, hfx⟩ := hfit e w hw
  rw [get?_shares, hw]
  simp only [Option.map_some', Option.getD_some]
  rw [hx, toInt_Round_fin x hfx]
  simp only [Float64.toRat]
  have hspec := (truncToInt_Round_spec x).1
  rw [abs_sub_comm] at hspec
  rw [← mul_sub, abs_mul, abs_of_nonneg hp, mul_comm (1 / 2 : ℚ)]
  exact mul_le_mul_of_nonneg_left hspec hp

/-- Witness for the amended C17: the weight table of Scenario A with target budget 50. -/
theorem realized_spend_within_half_prices_witness :
    |(∑ e ∈ weightsA.keys.toFinset, e.Price *
          ((((shares (Float64.fin 50) (minBudget weightsA) weightsA).get? e).getD 0 : ℤ) : ℚ)) -
        ∑ e ∈ weightsA.keys.toFinset, e.Price *
          (((weightsA.get? e).getD 0) * (Float64.fin 50 / minBudget weightsA)).toRat|
      ≤ 1 / 2 * ∑ e ∈ weightsA.keys.toFinset, e.Price :=
  realized_spend_within_half_prices weightsA (by decide!) (by decide!) 50
    (by
      intro e w hw
      have hk : e ∈ weightsA.keys := (mem_keys_iff weightsA e).2 (by rw [hw]; simp)
      have hkeys : weightsA.keys = [stockAAA, stockBBB] := by decide!
      rw [hkeys] at hk
      simp only [List.mem_cons, List.mem_singleton, List.not_mem_nil, or_false] at hk
      rcases hk with rfl | rfl
      · have h1 : weightsA.get? stockAAA = some 1 := by decide!
        rw [h1, Option.some.injEq] at hw
        subst hw
        exact ⟨5 / 2, by decide!, by decide!⟩
      · have h2 : weightsA.get? stockBBB = some 2 := by decide!
        rw [h2, Option.some.injEq] at hw
        subst hw
        exact ⟨5, by decide!, by decide!⟩)
/-- C11, counterexample: the market caps `3` and `1`, with `largest = 3`, are multiplied by
`k = 0.1` in `float64` arithmetic.  The weight of the equity with market cap `1` was `3`;
after rescaling it is `3.0000000000000004`. -/
theorem computeRelative_scale_counterexample :
    0 < tenth ∧ (∀ s ∈ [stockThree, stockOne], 0 < s.MarketCap) ∧
      (computeRelative [stockThree, stockOne] 3).get? stockOne = some 3 ∧
      (computeRelative ([stockThree, stockOne].map (rescaleFloat tenth))
          (roundFloat 53 (-1022) (tenth * 3))).get? (rescaleFloat tenth stockOne)
        = some (Float64.fin (6755399441055745 / 2251799813685248)) := by
  decide!

/-- C11, amended: weights are invariant under exact rescaling.  For every list of equities
with positive market caps and every constant `k > 0`, when every market cap and `largest`
are replaced by exactly `k` times their value (the products are not rounded, as for `k` a
power of two), `computeRelative` gives each rescaled equity the weight it gave the
original equity. -/
theorem computeRelative_scale_invariant (data : List Stock) (largest k : ℚ)
    (hcap : ∀ s ∈ data, 0 < s.MarketCap) (hk : 0 < k) (e : Stock) (he : e ∈ data) :
    (computeRelative (data.map (rescale k)) (k * largest)).get? (rescale k e) =
        (computeRelative data largest).get? e ∧
      (computeRelative data largest).get? e
        = some (Float64.fin largest / Float64.fin e.MarketCap) := by
  have hmem : rescale k e ∈ data.map (rescale k) := List.mem_map_of_mem _ he
  have hc : e.MarketCap ≠ 0 := ne_of_gt (hcap e he)
  have hkc : k * e.MarketCap ≠ 0 := mul_ne_zero (ne_of_gt hk) hc
  rw [get?_computeRelative, get?_computeRelative, if_pos hmem, if_pos he]
  refine ⟨?_, rfl⟩
  simp only [rescale, Float64.div_def, Float64.div, if_neg hc, if_neg hkc]
  rw [mul_div_mul_left _ _ (ne_of_gt hk)]

/-- Witness for the amended C11: Scenario A with every market cap multiplied by 2. -/
theorem computeRelative_scale_invariant_witness :
    (computeRelative ([stockAAA, stockBBB].map (rescale 2)) (2 * 1000000)).get?
          (rescale 2 stockBBB) =
        (computeRelative [stockAAA, stockBBB] 1000000).get? stockBBB ∧
      (computeRelative [stockAAA, stockBBB] 1000000).get? stockBBB
        = some (Float64.fin 1000000 / Float64.fin stockBBB.MarketCap) :=
  computeRelative_scale_invariant [stockAAA, stockBBB] 1000000 2 (by decide!) (by norm_num)
    stockBBB (by decide!)

/-- C12, counterexample: three equities whose terms `Price * weight` are `10^16`, `1` and
`1`.  Added in the order of the list `[stockOne, stockLightB, stockLightC]` they give
`10^16`; added in the order of the permuted list they give `10^16 + 2`. -/
theorem minBudget_order_counterexample :
    [stockOne, stockLightB, stockLightC].Perm [stockLightB, stockLightC, stockOne] ∧
      minBudget (computeRelative [stockOne, stockLightB, stockLightC] 10000000000000000)
        = 10000000000000000 ∧
      minBudget (computeRelative [stockLightB, stockLightC, stockOne] 10000000000000000)
        = 10000000000000002 := by
  decide!

/-- C12, amended: the minimum budget is independent of the input order up to rounding.  For
every list of equities, every permutation of it and every `largest`, in whatever order the
entries of the two weight tables are visited, when both minimum budgets are numbers they
differ by at most `2 * ((1 + 2^-53)^n - 1)` times the sum of the magnitudes of the terms
`Price * weight`, where `n` is the number of entries. -/
theorem minBudget_order_independent (data data' : List Stock) (largest : ℚ)
    (hperm : data.Perm data') (weights weights' : GoMap Stock Float64)
    (hw : weights.entries.Perm (computeRelative data largest).entries)
    (hw' : weights'.entries.Perm (computeRelative data' largest).entries) (s s' : ℚ)
    (hs : minBudget weights = Float64.fin s) (hs' : minBudget weights' = Float64.fin s') :
    |s' - s| ≤ 2 * (((1 + 1 / 2 ^ 53) ^ weights.len - 1) *
      (weights.entries.map (fun sw => |(Float64.fin sw.1.Price * sw.2).toRat|)).sum) := by
  have hent : (computeRelative data' largest).entries.Perm
      (computeRelative data largest).entries := by
    rw [List.perm_ext_iff_of_nodup
      (List.Nodup.of_map Prod.fst (computeRelative data' largest).nodupKeys)
      (List.Nodup.of_map Prod.fst (computeRelative data largest).nodupKeys)]
    intro sw
    rw [mem_entries_computeRelative_iff, mem_entries_computeRelative_iff, hperm.mem_iff]
  have hall : weights'.entries.Perm weights.entries := hw'.trans (hent.trans hw.symm)
  have h1 := (minBudget_err weights s hs).2
  have h2 := (minBudget_err weights' s' hs').2
  have hlen : weights'.len = weights.len := hall.length_eq
  rw [hlen, (hall.map (fun sw => (Float64.fin sw.1.Price * sw.2).toRat)).sum_eq,
    (hall.map (fun sw => |(Float64.fin sw.1.Price * sw.2).toRat|)).sum_eq] at h2
  have h1' := abs_le.1 h1
  have h2' := abs_le.1 h2
  rw [abs_le]
  constructor <;> linarith [h1'.1, h1'.2, h2'.1, h2'.2]

/-- Witness for the amended C12: the two equities of Scenario A in both orders; both
budgets are `20`. -/
theorem minBudget_order_independent_witness :
    |(20 : ℚ) - 20| ≤ 2 * (((1 + 1 / 2 ^ 53) ^ (computeRelative [stockAAA, stockBBB] 1000000).len
        - 1) *
      ((computeRelative [stockAAA, stockBBB] 1000000).entries.map
        (fun sw => |(Float64.fin sw.1.Price * sw.2).toRat|)).sum) :=
  minBudget_order_independent [stockAAA, stockBBB] [stockBBB, stockAAA] 1000000
    (List.Perm.swap stockBBB stockAAA []) (computeRelative [stockAAA, stockBBB] 1000000)
    (computeRelative [stockBBB, stockAAA] 1000000) (List.Perm.refl _) (List.Perm.refl _) 20 20
    (by decide!) (by decide!)
/-- C18, counterexample: the row `AAA,Alpha Co,Tech,1e-30,1000000` with the target budget
`2000000` of the program: the prices and market caps are positive, the target is at least
the minimum budget, and the equity receives `-9223372036854775808` shares. -/
theorem every_equity_share_counterexample :
    readCSV readerTiny = .ok [stockTiny] 1000000 ∧
      (∀ s ∈ [stockTiny], 0 < s.MarketCap ∧ 0 < s.Price ∧ s.MarketCap ≤ 1000000) ∧
      minBudget (computeRelative [stockTiny] 1000000) ≤ Float64.fin 2000000 ∧
      (shares (Float64.fin 2000000) (minBudget (computeRelative [stockTiny] 1000000))
        (computeRelative [stockTiny] 1000000)).get? stockTiny
          = some (-9223372036854775808) ∧
      ¬ (1 : ℤ) ≤ -9223372036854775808 := by
  decide!

/-- C18, amended: for every non-empty list of equities with positive market caps and
positive prices, with `largest` the maximum market cap and `weights` the table
`computeRelative data largest`, its entries visited in any order, and every target budget
`T ≥ minBudget weights`, an equity receives at least one share in
`shares T (minBudget weights) weights` provided its scaled weight, as `float64` arithmetic
computes it, is a number whose rounded value fits in `int`. -/
theorem every_equity_gets_a_share (data : List Stock) (largest T : ℚ) (hne : data ≠ [])
    (hcap : ∀ s ∈ data, 0 < s.MarketCap) (hprice : ∀ s ∈ data, 0 < s.Price)
    (hlargest : (∃ s ∈ data, s.MarketCap = largest) ∧ ∀ s ∈ data, s.MarketCap ≤ largest)
    (weights : GoMap Stock Float64)
    (hw : weights.entries.Perm (computeRelative data largest).entries)
    (hT : minBudget weights ≤ Float64.fin T) (e : Stock) (he : e ∈ data)
    (hfit : ∀ w, weights.get? e = some w →
      ∃ x, w * (Float64.fin T / minBudget weights) = Float64.fin x ∧
        fitsInt (truncToInt (Round x))) :
    ∃ n : ℤ, (shares (Float64.fin T) (minBudget weights) weights).get? e = some n ∧
      1 ≤ n := by
  have _ := hne
  obtain ⟨⟨s0, hs0, hs0v⟩, hmax⟩ := hlargest
  have hl : 0 ≤ largest := hs0v ▸ (hcap s0 hs0).le
  have hW : ∀ sw ∈ weights.entries, 0 ≤ sw.1.Price ∧ sw.2.NotNeg := by
    intro sw hsw
    have hsw' := hw.mem_iff.1 hsw
    have hmem := ((mem_entries_computeRelative_iff data largest sw).1 hsw').1
    exact ⟨(hprice _ hmem).le,
      computeRelative_notNeg data largest hl (fun s hs => (hcap s hs).le) sw hsw'⟩
  have hmb := minBudget_notNeg weights hW
  have hc : e.MarketCap ≠ 0 := ne_of_gt (hcap e he)
  have hwe : weights.get? e = some (Float64.ofRat (largest / e.MarketCap)) := by
    rw [GoMap.get?_eq_of_perm _ _ hw, get?_computeRelative, if_pos he,
      Float64.fin_div_fin hc]
  obtain ⟨x, hx, hfx⟩ := hfit _ hwe
  refine ⟨truncToInt (Round x), ?_, truncToInt_Round_ge_one x ?_⟩
  · rw [get?_shares, hwe, Option.map_some', hx, toInt_Round_fin x hfx]
  · obtain ⟨r₁, r₂, hr₁, hr₂, hprod⟩ := Float64.mul_eq_fin hx
    have h1 : 1 ≤ r₁ := by
      rw [Float64.eq_roundFloat_of_ofRat_eq_fin hr₁]
      exact Float64.one_le_roundFloat ((one_le_div (hcap e he)).2 (hmax e he))
    have h2 : 1 ≤ r₂ := by
      cases hb : minBudget weights with
      | posInf => rw [hb] at hT; exact absurd hT (by simp [Float64.le_def, Float64.le])
      | negInf => rw [hb] at hmb; exact absurd hmb (by simp [Float64.NotNeg])
      | nan => rw [hb] at hT; exact absurd hT (by simp [Float64.le_def, Float64.le])
      | fin b =>
        rw [hb] at hT hmb hr₂
        have hbT : b ≤ T := hT
        have hb0 : 0 ≤ b := hmb
        by_cases hbz : b = 0
        · simp only [Float64.div_def, Float64.div, hbz, if_true] at hr₂
          split_ifs at hr₂
        · rw [Float64.fin_div_fin hbz] at hr₂
          rw [Float64.eq_roundFloat_of_ofRat_eq_fin hr₂]
          exact Float64.one_le_roundFloat
            ((one_le_div (lt_of_le_of_ne hb0 (Ne.symm hbz))).2 hbT)
    rw [Float64.eq_roundFloat_of_ofRat_eq_fin hprod]
    exact Float64.one_le_roundFloat (one_le_mul_of_one_le_of_one_le h1 h2)

/-- Witness for the amended C18: Scenario A with target budget 40, at least the minimum
budget 20. -/
theorem every_equity_gets_a_share_witness :
    ∃ n : ℤ, (shares (Float64.fin 40) (minBudget (computeRelative [stockAAA, stockBBB] 1000000))
      (computeRelative [stockAAA, stockBBB] 1000000)).get? stockAAA = some n ∧ 1 ≤ n :=
  every_equity_gets_a_share [stockAAA, stockBBB] 1000000 40 (by simp) (by decide!) (by decide!)
    ⟨⟨stockAAA, by decide!⟩, by decide!⟩ (computeRelative [stockAAA, stockBBB] 1000000)
    (List.Perm.refl _) (by decide!) stockAAA (by decide!)
    (by
      intro w hw
      have hw1 : (computeRelative [stockAAA, stockBBB] 1000000).get? stockAAA = some 1 := by
        decide!
      rw [hw1, Option.some.injEq] at hw
      subst hw
      exact ⟨2, by decide!, by decide!⟩)

/-- C19, counterexample: market caps `1` and `2`, `largest = 2`, target budget `6 * 10^18`
and minimum budget `1`.  The equity with the smaller market cap has scaled weight
`1.2 * 10^19`, beyond the 64-bit `int`, and receives `-9223372036854775808` shares; the
other receives `6 * 10^18`. -/
theorem shares_antitone_counterexample :
    (∀ s ∈ [stockOne, stockTwo], 0 < s.MarketCap) ∧ stockOne.MarketCap ≤ stockTwo.MarketCap ∧
      (shares (Float64.fin 6000000000000000000) (Float64.fin 1)
        (computeRelative [stockOne, stockTwo] 2)).get? stockOne
          = some (-9223372036854775808) ∧
      (shares (Float64.fin 6000000000000000000) (Float64.fin 1)
        (computeRelative [stockOne, stockTwo] 2)).get? stockTwo
          = some 6000000000000000000 ∧
      ¬ (6000000000000000000 : ℤ) ≤ -9223372036854775808 := by
  decide!

/-- C19, amended: share counts are antitone in market cap.  For every list of equities with
positive market caps, every `largest ≥ 0`, every target budget `≥ 0` and every
`minBudget > 0`, when `a` and `b` are both in `weights = computeRelative data largest`,
`a.MarketCap ≤ b.MarketCap` and the scaled weight of `a`, as `float64` arithmetic computes
it, is a number whose rounded value fits in `int`, the share count of `a` is at least the
share count of `b`. -/
theorem shares_antitone_in_market_cap (data : List Stock) (largest target minBudget : ℚ)
    (hcap : ∀ s ∈ data, 0 < s.MarketCap) (hl : 0 ≤ largest) (ht : 0 ≤ target)
    (hmb : 0 < minBudget) (a b : Stock)
    (ha : (computeRelative data largest).get? a ≠ none)
    (hb : (computeRelative data largest).get? b ≠ none)
    (hab : a.MarketCap ≤ b.MarketCap)
    (hfa : ∀ w, (computeRelative data largest).get? a = some w →
      ∃ x, w * (Float64.fin target / Float64.fin minBudget) = Float64.fin x ∧
        fitsInt (truncToInt (Round x))) :
    ∃ na nb : ℤ,
      (shares (Float64.fin target) (Float64.fin minBudget)
        (computeRelative data largest)).get? a = some na ∧
      (shares (Float64.fin target) (Float64.fin minBudget)
        (computeRelative data largest)).get? b = some nb ∧
      nb ≤ na := by
  have hma := mem_of_get?_computeRelative_ne_none data largest a ha
  have hmb' := mem_of_get?_computeRelative_ne_none data largest b hb
  have hca := hcap a hma
  have hcb := hcap b hmb'
  have hwa : (computeRelative data largest).get? a
      = some (Float64.ofRat (largest / a.MarketCap)) := by
    rw [get?_computeRelative, if_pos hma, Float64.fin_div_fin (ne_of_gt hca)]
  have hwb : (computeRelative data largest).get? b
      = some (Float64.ofRat (largest / b.MarketCap)) := by
    rw [get?_computeRelative, if_pos hmb', Float64.fin_div_fin (ne_of_gt hcb)]
  obtain ⟨xa, hxa, hfxa⟩ := hfa _ hwa
  rw [Float64.fin_div_fin (ne_of_gt hmb)] at hxa
  obtain ⟨ra, m, hra, hm, hpa⟩ := Float64.mul_eq_fin hxa
  have hra' := Float64.eq_roundFloat_of_ofRat_eq_fin hra
  have hm' := Float64.eq_roundFloat_of_ofRat_eq_fin hm
  have hxa' := Float64.eq_roundFloat_of_ofRat_eq_fin hpa
  have hm0 : 0 ≤ m := by
    rw [hm']
    exact roundFloat_nonneg 53 (-1022) _ (div_nonneg ht hmb.le)
  have hqb0 : 0 ≤ largest / b.MarketCap := div_nonneg hl hcb.le
  have hrb0 : 0 ≤ roundFloat 53 (-1022) (largest / b.MarketCap) :=
    roundFloat_nonneg 53 (-1022) _ hqb0
  have hrab : roundFloat 53 (-1022) (largest / b.MarketCap) ≤ ra := by
    rw [hra']
    exact roundFloat_mono 53 (-1022) (by norm_num) _ _ hqb0
      (div_le_div_of_nonneg_left hl hca hab)
  -- the weight of `b` is a number, as the weight of `a` is
  have hrb : Float64.ofRat (largest / b.MarketCap)
      = Float64.fin (roundFloat 53 (-1022) (largest / b.MarketCap)) :=
    Float64.ofRat_eq_fin_of_lt hqb0
      (lt_of_le_of_lt (hra' ▸ hrab) (Float64.lt_pow2_of_ofRat_eq_fin hra))
  -- so is its scaled weight, which is at most the scaled weight of `a`
  have hxba : roundFloat 53 (-1022) (roundFloat 53 (-1022) (largest / b.MarketCap) * m)
      ≤ xa := by
    rw [hxa']
    exact roundFloat_mono 53 (-1022) (by norm_num) _ _ (mul_nonneg hrb0 hm0)
      (mul_le_mul_of_nonneg_right hrab hm0)
  have hxb : Float64.ofRat (largest / b.MarketCap)
        * (Float64.fin target / Float64.fin minBudget)
      = Float64.fin (roundFloat 53 (-1022)
          (roundFloat 53 (-1022) (largest / b.MarketCap) * m)) := by
    rw [Float64.fin_div_fin (ne_of_gt hmb), hm, hrb, Float64.mul_def]
    exact Float64.ofRat_eq_fin_of_lt (mul_nonneg hrb0 hm0)
      (lt_of_le_of_lt (hxa' ▸ hxba) (Float64.lt_pow2_of_ofRat_eq_fin hpa))
  have hxb0 : 0 ≤ roundFloat 53 (-1022) (roundFloat 53 (-1022) (largest / b.MarketCap) * m) :=
    roundFloat_nonneg 53 (-1022) _ (mul_nonneg hrb0 hm0)
  have hmono := truncToInt_Round_mono _ _ hxba
  have hfxb : fitsInt (truncToInt (Round (roundFloat 53 (-1022)
      (roundFloat 53 (-1022) (largest / b.MarketCap) * m)))) := by
    have h0 := truncToInt_Round_nonneg _ hxb0
    have h1 := hfxa.2
    constructor
    · omega
    · omega
  refine ⟨truncToInt (Round xa), _, ?_, ?_, hmono⟩
  · rw [get?_shares, hwa, Option.map_some', Float64.fin_div_fin (ne_of_gt hmb), hxa,
      toInt_Round_fin xa hfxa]
  · rw [get?_shares, hwb, Option.map_some', hxb, toInt_Round_fin _ hfxb]

/-- Witness for the amended C19: Scenario A, where BBB has the smaller market cap. -/
theorem shares_antitone_in_market_cap_witness :
    ∃ na nb : ℤ,
      (shares (Float64.fin 40) (Float64.fin 20)
        (computeRelative [stockAAA, stockBBB] 1000000)).get? stockBBB = some na ∧
      (shares (Float64.fin 40) (Float64.fin 20)
        (computeRelative [stockAAA, stockBBB] 1000000)).get? stockAAA = some nb ∧
      nb ≤ na :=
  shares_antitone_in_market_cap [stockAAA, stockBBB] 1000000 40 20 (by decide!) (by norm_num)
    (by norm_num) (by norm_num) stockBBB stockAAA (by decide!) (by decide!) (by decide!)
    (by
      intro w hw
      have hw2 : (computeRelative [stockAAA, stockBBB] 1000000).get? stockBBB = some 2 := by
        decide!
      rw [hw2, Option.some.injEq] at hw
      subst hw
      exact ⟨4, by decide!, by decide!⟩)
/-- C10, counterexample: the table that gives `stockOne` weight `1` has minimum budget `1`;
for the positive integer `k = 10^19` the equity of weight `1` receives
`-9223372036854775808` shares, not `k`.  And the table that gives `stockSeven` weight `1`
has minimum budget `7`; for `k = 2573604768330298`, which is less than `2^52`, the equity
receives `k + 1` shares. -/
theorem shares_integer_multiple_counterexample :
    ((0 : Float64) < minBudget weightsOne ∧ weightsOne.get? stockOne = some 1 ∧
      (shares (Float64.fin 10000000000000000000 * minBudget weightsOne) (minBudget weightsOne)
        weightsOne).get? stockOne = some (-9223372036854775808) ∧
      (-9223372036854775808 : ℤ) ≠ 10000000000000000000) ∧
    ((0 : Float64) < minBudget (computeRelative [stockSeven] 1) ∧
      (computeRelative [stockSeven] 1).get? stockSeven = some 1 ∧
      (shares (Float64.fin 2573604768330298 * minBudget (computeRelative [stockSeven] 1))
        (minBudget (computeRelative [stockSeven] 1))
        (computeRelative [stockSeven] 1)).get? stockSeven = some 2573604768330299 ∧
      (2573604768330299 : ℤ) ≠ 2573604768330298) := by
  decide!

/-- C10, amended: for every weight table whose minimum budget is a positive number `mb` and
every positive integer `k ≤ 2^50` for which the target budget `k * minBudget weights` is a
number `P` (the product does not overflow), in
`shares (k * minBudget weights) (minBudget weights) weights` every equity whose weight is
`1` receives exactly `k` shares. -/
theorem shares_at_integer_multiple (weights : GoMap Stock Float64) (mb : ℚ)
    (hmb : minBudget weights = Float64.fin mb) (hpos : 0 < mb)
    (k : ℕ) (hk : 0 < k) (hk50 : k ≤ 2 ^ 50) (P : ℚ)
    (hP : Float64.fin k * minBudget weights = Float64.fin P)
    (e : Stock) (he : weights.get? e = some 1) :
    (shares (Float64.fin k * minBudget weights) (minBudget weights) weights).get? e
      = some (k : ℤ) := by
  have hb0 : 0 < mb := hpos
  have hK1 : (1 : ℚ) ≤ (k : ℚ) := by exact_mod_cast hk
  have hK0 : (0 : ℚ) ≤ (k : ℚ) := le_trans zero_le_one hK1
  have hK50 : (k : ℚ) ≤ 2 ^ 50 := by exact_mod_cast hk50
  -- the target budget `k * mb`
  have hKb0 : 0 < (k : ℚ) * mb := mul_pos (lt_of_lt_of_le one_pos hK1) hb0
  have e1 : |roundFloat 53 (-1022) ((k : ℚ) * mb) - (k : ℚ) * mb| ≤ (k : ℚ) * mb / 2 ^ 53 := by
    have h := roundFloat53_err_onGrid _ (onGrid_natMul k (minBudget_err weights mb hmb).1)
    rw [abs_of_pos hKb0] at h
    rw [div_eq_mul_inv, mul_comm ((k : ℚ) * mb), ← one_div]
    exact h
  have hport : Float64.fin (k : ℚ) * minBudget weights
      = Float64.fin (roundFloat 53 (-1022) ((k : ℚ) * mb)) := by
    have hP' : Float64.ofRat ((k : ℚ) * mb) = Float64.fin P := by
      rw [← hP, hmb]
      rfl
    rw [hP, Float64.eq_roundFloat_of_ofRat_eq_fin hP']
  -- the multiple `(k * mb) / mb`
  have hp : |roundFloat 53 (-1022) ((k : ℚ) * mb) / mb - (k : ℚ)| ≤ 1 * ((k : ℚ) / 2 ^ 53) := by
    have hrw : roundFloat 53 (-1022) ((k : ℚ) * mb) / mb - (k : ℚ)
        = (roundFloat 53 (-1022) ((k : ℚ) * mb) - (k : ℚ) * mb) / mb := by
      field_simp
      ring
    rw [hrw, abs_div, abs_of_pos hb0, div_le_iff₀ hb0, one_mul]
    have hrw2 : (k : ℚ) / 2 ^ 53 * mb = (k : ℚ) * mb / 2 ^ 53 := by ring
    rw [hrw2]
    exact e1
  have hM := roundFloat53_step _ (k : ℚ) 1 hK1 (by norm_num) (by norm_num) hp
  have hMhalf := le_of_lt (lt_of_le_of_lt hM
    (units_lt_half (k : ℚ) _ hK0 hK50 (by norm_num)))
  have hp0 : 0 ≤ roundFloat 53 (-1022) ((k : ℚ) * mb) / mb :=
    div_nonneg (roundFloat_nonneg _ _ _ hKb0.le) hb0.le
  have hmult : Float64.fin (roundFloat 53 (-1022) ((k : ℚ) * mb)) / Float64.fin mb
      = Float64.fin (roundFloat 53 (-1022) (roundFloat 53 (-1022) ((k : ℚ) * mb) / mb)) := by
    rw [Float64.fin_div_fin (ne_of_gt hb0)]
    exact Float64.ofRat_eq_fin_of_lt hp0 (lt_pow2_1024_of_near _ _ hK50 hMhalf)
  -- the scaled weight `1 * multiple`
  have hX := roundFloat53_step _ (k : ℚ) (1 + 9 / 8) hK1 (by norm_num) (by norm_num) hM
  have hXnear := lt_of_le_of_lt hX
    (units_lt_half (k : ℚ) _ hK0 hK50 (by norm_num))
  have hM0 : 0 ≤ roundFloat 53 (-1022) (roundFloat 53 (-1022) ((k : ℚ) * mb) / mb) :=
    roundFloat_nonneg _ _ _ hp0
  have hscaled : (1 : Float64)
        * Float64.fin (roundFloat 53 (-1022) (roundFloat 53 (-1022) ((k : ℚ) * mb) / mb))
      = Float64.fin (roundFloat 53 (-1022)
          (roundFloat 53 (-1022) (roundFloat 53 (-1022) ((k : ℚ) * mb) / mb))) := by
    rw [Float64.ofNat_def, Float64.mul_def]
    simp only [Float64.mul, Nat.cast_one, one_mul]
    exact Float64.ofRat_eq_fin_of_lt hM0 (lt_pow2_1024_of_near _ _ hK50 hXnear.le)
  have hc : (((k : ℕ) : ℤ) : ℚ) = (k : ℚ) := Int.cast_natCast k
  have hround := truncToInt_Round_eq_of_near _ (k : ℤ) (by rw [hc]; exact hXnear)
  have hfits : fitsInt (truncToInt (Round (roundFloat 53 (-1022)
      (roundFloat 53 (-1022) (roundFloat 53 (-1022) ((k : ℚ) * mb) / mb))))) := by
    rw [hround]
    constructor
    · have : (0 : ℤ) ≤ (k : ℤ) := Int.natCast_nonneg k
      omega
    · have h50 : ((k : ℕ) : ℤ) ≤ 2 ^ 50 := by exact_mod_cast hk50
      have : (2 : ℤ) ^ 50 < 2 ^ 63 := by norm_num
      omega
  rw [get?_shares, he, Option.map_some', hport, hmb, hmult, hscaled,
    toInt_Round_fin _ hfits, hround]

/-- Witness for the amended C10: Scenario A with `k = 2`, where AAA has weight `1` and the
minimum budget is `20`. -/
theorem shares_at_integer_multiple_witness :
    (shares (Float64.fin ((2 : ℕ) : ℚ) * minBudget weightsA) (minBudget weightsA)
      weightsA).get? stockAAA = some ((2 : ℕ) : ℤ) :=
  shares_at_integer_multiple weightsA 20 (by decide!) (by norm_num) 2 (by decide) (by decide)
    40 (by decide!) stockAAA (by decide!)

end EqualWeight
